import Mathlib

/-!
Verification of the generation-job orchestrator of `src/start.ts`
(literal-visualiser).

The development contains two shallow embeddings, both translated from the
source:

* a *job-lifecycle* transition system (`SysState`, `step`) covering the
  `generate` handler after lyric lines are resolved, the serialized work
  queue (`_generationQueue`), the waiting queue (`_waitingGenerations`),
  the registry (`_pendingGenerations`), the timeout supervisor
  (`_resetGenerationTimeout`) and the `poll` handler;
* a *line-resolution* transition system (`JobState`, `stepJ`) covering the
  body of one job's `callback`: per-line cache lookup, the in-flight
  request map (`pendingImageUrisByWords`), the throttle delay
  (`uncachedIndex`), the external generator call, the fire-and-forget
  cache inserts, and the `done` counter.

Concurrency of the single-threaded event loop is modelled by interleaving
atomic segments: one transition corresponds to the synchronous code run
between two suspension points (`await`) of the source.
-/

/-- One lyric line: `{ startTimeMs, words }` of `start.ts`. -/
structure Line where
  startTimeMs : Int
  words : String
deriving DecidableEq, Repr

/-- One entry of the final `lyrics` array: `{ imageUri, startTimeMs, words }`. -/
structure Lyric where
  imageUri : String
  startTimeMs : Int
  words : String
deriving DecidableEq, Repr

/-- The `Generation` union type of `start.ts`.  A `done` entry of the
source carries `lyrics` whose cells may be `undefined` (skipped lines),
hence `Option Lyric`. -/
inductive Generation where
  | waiting
  | inProgress (done total : Nat)
  | error
  | cancelled
  | done (lyrics : List (Option Lyric))
deriving DecidableEq, Repr

/-- The content hash `md5(words)` used as dedup key.  The source relies
only on equal text mapping to equal digest, so the digest is embedded as
the text itself. -/
def md5 (s : String) : String := s

/-- The `'data:image/jpeg;base64,'` prefix every `imageUri` starts from. -/
def dataUriPrefix : String := "data:image/jpeg;base64,"

/-- `getRandomElement` of `start.ts`; the random draw is supplied as an
explicit index `k`.  On an empty array, JS `array[Math.floor(...)]` yields
`undefined`; that coercion is represented by the fallback string. -/
def getRandomElement (l : List String) (k : Nat) : String :=
  (l.get? (k % l.length)).getD "undefined"

/-- `GENERATION_TIMEOUT_MS` of `start.ts`. -/
def GENERATION_TIMEOUT_MS : Nat := 5000

/-! ## Job-lifecycle model -/

/-- Bookkeeping for one job: its resolved lines, whether the creation-time
cache query found uncached work (`hasAnyUncached`), and whether its
`callback` body has started / finished.  The source keeps this information
implicitly in the closures chained on `_generationQueue`. -/
structure Job where
  lines : List Line
  realWork : Bool
  started : Bool
  ended : Bool
deriving DecidableEq, Repr

/-- Global orchestrator state.

* `pending`  : `_pendingGenerations` (job registry);
* `waiting`  : key insertion order of `_waitingGenerations`;
* `chain`    : jobs attached to `_generationQueue` whose callback has not
  settled yet, in FIFO order (the head is the job whose turn it is);
* `timers`   : keys of `_generationTimeouts`;
* `jobs`     : permanent record of every allocated generation id
  (ids come from `v4()` and are never reused);
* `db`       : rows `(id, words_hash)` of the `generations` table;
* `lyricsDB` : rows `(track_id, line)` of the `lyrics` table. -/
structure SysState where
  pending : String → Option Generation
  waiting : List String
  chain : List String
  timers : String → Bool
  jobs : String → Option Job
  db : List (String × String)
  lyricsDB : List (String × Line)

/-- Point update of a map-as-function. -/
def upd {α : Type} (m : String → α) (k : String) (v : α) : String → α :=
  fun k' => if k' = k then v else m k'

/-- `[...new Set(lines.map(({ words }) => words))].map(md5)`:
unique word hashes in first-occurrence order. -/
def uniqueWordHashes (lines : List Line) : List String :=
  ((lines.map Line.words).eraseDups).map md5

/-- `SELECT COUNT(DISTINCT(words_hash)) FROM generations WHERE words_hash
IN (...)` evaluated against the embedded `generations` table; `hashes` is
already duplicate-free. -/
def countDistinctPresent (db : List (String × String)) (hashes : List String) : Nat :=
  (hashes.filter (fun h => (db.map Prod.snd).contains h)).length

/-- `hasAnyUncached` of the `generate` handler. -/
def hasAnyUncached (db : List (String × String)) (lines : List Line) : Bool :=
  countDistinctPresent db (uniqueWordHashes lines) < (uniqueWordHashes lines).length

/-- Job creation: the part of the `generate` handler after lines are
resolved.  With uncached work the job is registered `waiting`, put in the
waiting queue and appended to `_generationQueue`; otherwise
`setInProgress()` runs and `callback()` is invoked in the same synchronous
segment, so the job starts immediately.  Either way
`_resetGenerationTimeout` arms the job's timer. -/
def createJob (s : SysState) (id : String) (lines : List Line) : SysState :=
  if hasAnyUncached s.db lines then
    { s with
      pending := upd s.pending id (some Generation.waiting)
      waiting := s.waiting ++ [id]
      chain := s.chain ++ [id]
      timers := upd s.timers id true
      jobs := upd s.jobs id (some ⟨lines, true, false, false⟩) }
  else
    { s with
      pending := upd s.pending id (some (Generation.inProgress 0 lines.length))
      timers := upd s.timers id true
      jobs := upd s.jobs id (some ⟨lines, false, true, false⟩) }

/-- The terminal update of `callback`: set status `done` only when the job
is still `inProgress` in the registry. -/
def endPending (p : String → Option Generation) (id : String)
    (lyr : List (Option Lyric)) : String → Option Generation :=
  match p id with
  | some (Generation.inProgress _ _) => upd p id (some (Generation.done lyr))
  | _ => p

/-- Scheduler-visible events of the lifecycle model.  Each corresponds to
one atomic segment of the source. -/
inductive Act where
  /-- the `generate` handler runs with already-resolved `lines`
      (guard: the `v4()` id is fresh and `lines` nonempty) -/
  | generate (id : String) (lines : List Line)
  /-- the promise chain reaches the head job's `callback`: it runs
      `setInProgress()` and `delete _waitingGenerations[id]` -/
  | startHead
  /-- one line of a running body performs `generation.done++` -/
  | bodyProgress (id : String)
  /-- a line of a running body hits the `catch` and sets status `error` -/
  | bodyError (id : String)
  /-- `Promise.all` of the body settles: set `done` if still in progress,
      and let the chain advance -/
  | bodyEnd (id : String) (lyrics : List (Option Lyric))
  /-- the `setTimeout` of `_resetGenerationTimeout` fires -/
  | fireTimeout (id : String)
  /-- the `poll` handler runs for `id` -/
  | poll (id : String)

/-- One transition of the lifecycle model; actions whose guard fails leave
the state unchanged. -/
def step (s : SysState) (a : Act) : SysState :=
  match a with
  | Act.generate id lines =>
      if (s.jobs id).isSome ∨ lines = [] then s else createJob s id lines
  | Act.startHead =>
      match s.chain with
      | [] => s
      | id :: _ =>
        match s.jobs id with
        | none => s
        | some jb =>
          if jb.started then s
          else
            { s with
              pending := upd s.pending id (some (Generation.inProgress 0 jb.lines.length))
              waiting := s.waiting.filter (fun w => ¬ w = id)
              jobs := upd s.jobs id (some { jb with started := true }) }
  | Act.bodyProgress id =>
      match s.jobs id with
      | none => s
      | some jb =>
        if jb.started ∧ ¬ jb.ended then
          match s.pending id with
          | some (Generation.inProgress d t) =>
              { s with pending := upd s.pending id (some (Generation.inProgress (d + 1) t)) }
          | _ => s
        else s
  | Act.bodyError id =>
      match s.jobs id with
      | none => s
      | some jb =>
        if jb.started ∧ ¬ jb.ended then
          match s.pending id with
          | some (Generation.inProgress _ _) =>
              { s with pending := upd s.pending id (some Generation.error) }
          | _ => s
        else s
  | Act.bodyEnd id lyr =>
      match s.jobs id with
      | none => s
      | some jb =>
        if jb.started ∧ ¬ jb.ended ∧ (jb.realWork → s.chain.head? = some id) then
          { s with
            pending := endPending s.pending id lyr
            jobs := upd s.jobs id (some { jb with ended := true })
            chain := if jb.realWork then s.chain.tail else s.chain }
        else s
  | Act.fireTimeout id =>
      if s.timers id then
        { s with
          timers := upd s.timers id false
          pending := upd s.pending id none
          waiting := s.waiting.filter (fun w => ¬ w = id) }
      else s
  | Act.poll id =>
      match s.pending id with
      | none => s
      | some (Generation.done _) =>
          { s with
            pending := upd s.pending id none
            timers := upd s.timers id false }
      | some _ =>
          { s with timers := upd s.timers id true }

/-- Run a sequence of scheduler events. -/
def run (s : SysState) (acts : List Act) : SysState :=
  acts.foldl step s

/-- Initial orchestrator state: empty maps, with given persistent tables. -/
def initS (db : List (String × String)) (ldb : List (String × Line)) : SysState :=
  { pending := fun _ => none
    waiting := []
    chain := []
    timers := fun _ => false
    jobs := fun _ => none
    db := db
    lyricsDB := ldb }

/-- `Array.prototype.indexOf` over the waiting-key list: `-1` when absent. -/
def jsIndexOf (l : List String) (x : String) : Int :=
  if x ∈ l then (l.findIdx (fun y => y = x) : Int) else -1

/-- The JSON snapshot served by `poll`.  For a `waiting` job the
`queuePosition` getter evaluates
`Object.values(_waitingGenerations).indexOf(this) + 2`. -/
inductive Snap where
  | waiting (queuePosition : Int)
  | inProgress (done total : Nat)
  | error
  | cancelled
  | done (lyrics : List (Option Lyric))
deriving DecidableEq, Repr

/-- Response of the `poll` handler; `none` is the 404. -/
def pollResult (s : SysState) (id : String) : Option Snap :=
  match s.pending id with
  | none => none
  | some Generation.waiting => some (Snap.waiting (jsIndexOf s.waiting id + 2))
  | some (Generation.inProgress d t) => some (Snap.inProgress d t)
  | some Generation.error => some Snap.error
  | some Generation.cancelled => some Snap.cancelled
  | some (Generation.done lyr) => some (Snap.done lyr)

/-! ## Lyric fetching (`generate` before job creation) -/

/-- Outcome of the Spotify color-lyrics request for a track. -/
inductive Provider where
  /-- the provider responded 404 (`error.response?.status === 404`) -/
  | notFound
  /-- any other lyric-fetch failure -/
  | failure
  /-- lyric lines, already shaped as `(startTimeMs, words)` -/
  | ok (raw : List Line)
deriving DecidableEq, Repr

/-- HTTP-visible result of the `generate` handler. -/
inductive GenResp where
  | ok (generationId : String)
  | status422
  | status500
deriving DecidableEq, Repr

/-- The lyric-resolution block of the `generate` handler: cached rows win;
otherwise the provider result is filtered (`words && words !== '♪'`) and
rejected with 422 when every line has `startTimeMs === 0` (unsynced
lyrics). -/
def fetchLines (cached : List Line) (p : Provider) : Except GenResp (List Line) :=
  if cached ≠ [] then Except.ok cached
  else
    match p with
    | Provider.notFound => Except.error GenResp.status422
    | Provider.failure => Except.error GenResp.status500
    | Provider.ok raw =>
        let lines := raw.filter (fun l => l.words ≠ "" ∧ l.words ≠ "♪")
        if lines.all (fun l => l.startTimeMs = 0) then Except.error GenResp.status422
        else Except.ok lines

/-- The whole `generate` handler: resolve lines, cache freshly fetched
lyrics rows, then create the job.  On a fetch failure the handler returns
the status without touching any state. -/
def generateHandler (s : SysState) (trackId id : String) (cached : List Line)
    (p : Provider) : GenResp × SysState :=
  match fetchLines cached p with
  | Except.error r => (r, s)
  | Except.ok lines =>
      let s1 :=
        if cached = [] then
          { s with lyricsDB := s.lyricsDB ++ lines.map (fun l => (trackId, l)) }
        else s
      (GenResp.ok id, createJob s1 id lines)

/-! ## Map and list helpers -/

theorem upd_self {α : Type} (m : String → α) (k : String) (v : α) : upd m k v k = v := by
  simp [upd]

theorem upd_ne {α : Type} (m : String → α) (k : String) (v : α) (k' : String)
    (h : ¬ k' = k) : upd m k v k' = m k' := by
  simp [upd, h]

theorem head?_append_of_ne_nil {α : Type} (l : List α) (x : α) (h : l ≠ []) :
    (l ++ [x]).head? = l.head? := by
  cases l with
  | nil => exact absurd rfl h
  | cons a t => rfl

theorem mem_filter_ne {l : List String} {x id : String} :
    x ∈ l.filter (fun w => ¬ w = id) ↔ x ∈ l ∧ ¬ x = id := by
  simp [List.mem_filter]

theorem endPending_eq (p : String → Option Generation) (id : String)
    (lyr : List (Option Lyric)) :
    (endPending p id lyr = upd p id (some (Generation.done lyr)) ∧
      ∃ d t, p id = some (Generation.inProgress d t)) ∨
    ((∀ d t, ¬ p id = some (Generation.inProgress d t)) ∧ endPending p id lyr = p) := by
  unfold endPending
  cases hp : p id with
  | none => exact Or.inr ⟨by simp, rfl⟩
  | some g =>
    cases g with
    | waiting => exact Or.inr ⟨by simp, rfl⟩
    | inProgress d t => exact Or.inl ⟨rfl, d, t, rfl⟩
    | error => exact Or.inr ⟨by simp, rfl⟩
    | cancelled => exact Or.inr ⟨by simp, rfl⟩
    | done lyr2 => exact Or.inr ⟨by simp, rfl⟩

theorem nodup_tail {α : Type} (l : List α) (h : l.Nodup) : l.tail.Nodup := by
  cases l with
  | nil => simp
  | cons a t => exact (List.nodup_cons.mp h).2

/-! ## Lifecycle invariants -/

/-- Reachable-state invariants of the orchestrator.  `mutex` is the heart:
a job with uncached work (`realWork`) can be `inProgress` only while it is
the head of the serialized chain with its body running. -/
structure Invs (s : SysState) : Prop where
  endedStarted : ∀ id jb, s.jobs id = some jb → jb.ended = true → jb.started = true
  mutex : ∀ id jb d t, s.jobs id = some jb → jb.realWork = true →
    s.pending id = some (Generation.inProgress d t) →
    s.chain.head? = some id ∧ jb.started = true ∧ jb.ended = false
  waitMem : ∀ id, s.pending id = some Generation.waiting → id ∈ s.waiting
  doneEnded : ∀ id lyr, s.pending id = some (Generation.done lyr) →
    ∃ jb, s.jobs id = some jb ∧ jb.started = true ∧ jb.ended = true
  pendJobs : ∀ id g, s.pending id = some g → (s.jobs id).isSome
  waitJobs : ∀ id, id ∈ s.waiting → (s.jobs id).isSome
  chainJobs : ∀ id, id ∈ s.chain → ∃ jb, s.jobs id = some jb ∧ jb.realWork = true ∧ jb.ended = false
  chainNodup : s.chain.Nodup

theorem invs_init (db : List (String × String)) (ldb : List (String × Line)) :
    Invs (initS db ldb) := by
  constructor <;> simp [initS]

theorem invs_step (s : SysState) (a : Act) (h : Invs s) : Invs (step s a) := by
  cases a with
  | generate id lines =>
    by_cases hg : (s.jobs id).isSome ∨ lines = []
    · simpa [step, hg] using h
    · push_neg at hg
      have hfresh : s.jobs id = none := by
        cases hj : s.jobs id with
        | none => rfl
        | some jb => exact absurd (by simp [hj]) hg.1
      have hcond : ¬ ((s.jobs id).isSome = true ∨ lines = []) := by
        simp [hfresh, hg.2]
      simp only [step]
      rw [if_neg hcond]
      by_cases hu : hasAnyUncached s.db lines
      · -- uncached: job becomes waiting, appended to waiting and chain
        simp only [createJob, if_pos hu]
        constructor <;> dsimp only
        · intro id' jb hjb he
          by_cases hid : id' = id
          · subst hid; rw [upd_self] at hjb; cases hjb; simp at he
          · rw [upd_ne _ _ _ _ hid] at hjb; exact h.endedStarted id' jb hjb he
        · intro id' jb d t hjb hrw hp
          by_cases hid : id' = id
          · subst hid; rw [upd_self] at hp; cases hp
          · rw [upd_ne _ _ _ _ hid] at hjb
            rw [upd_ne _ _ _ _ hid] at hp
            obtain ⟨hh, hs, he⟩ := h.mutex id' jb d t hjb hrw hp
            refine ⟨?_, hs, he⟩
            rw [head?_append_of_ne_nil]
            · exact hh
            · intro hnil; rw [hnil] at hh; cases hh
        · intro id' hp
          by_cases hid : id' = id
          · subst hid; simp
          · rw [upd_ne _ _ _ _ hid] at hp
            exact List.mem_append_left _ (h.waitMem id' hp)
        · intro id' lyr hp
          by_cases hid : id' = id
          · subst hid; rw [upd_self] at hp; cases hp
          · rw [upd_ne _ _ _ _ hid] at hp
            obtain ⟨jb, hjb, hs, he⟩ := h.doneEnded id' lyr hp
            exact ⟨jb, by rw [upd_ne _ _ _ _ hid]; exact hjb, hs, he⟩
        · intro id' g hp
          by_cases hid : id' = id
          · subst hid; simp [upd_self]
          · rw [upd_ne _ _ _ _ hid] at hp
            rw [upd_ne _ _ _ _ hid]
            exact h.pendJobs id' g hp
        · intro id' hmem
          rcases List.mem_append.mp hmem with hl | hr
          · by_cases hid : id' = id
            · subst hid; simp [upd_self]
            · rw [upd_ne _ _ _ _ hid]; exact h.waitJobs id' hl
          · have : id' = id := by simpa using hr
            subst this; simp [upd_self]
        · intro id' hmem
          rcases List.mem_append.mp hmem with hl | hr
          · obtain ⟨jb, hjb, hr2, he⟩ := h.chainJobs id' hl
            have hid : id' ≠ id := by
              intro e; subst e; rw [hjb] at hfresh; cases hfresh
            exact ⟨jb, by rw [upd_ne _ _ _ _ hid]; exact hjb, hr2, he⟩
          · have : id' = id := by simpa using hr
            subst this
            exact ⟨⟨lines, true, false, false⟩, by simp [upd_self], rfl, rfl⟩
        · have hid : id ∉ s.chain := by
            intro hmem
            obtain ⟨jb, hjb, _, _⟩ := h.chainJobs id hmem
            rw [hjb] at hfresh; cases hfresh
          simp [List.nodup_append, h.chainNodup, hid]
      · -- fully cached: job starts in progress at once
        simp only [createJob, if_neg hu]
        constructor <;> dsimp only
        · intro id' jb hjb he
          by_cases hid : id' = id
          · subst hid; rw [upd_self] at hjb; cases hjb; rfl
          · rw [upd_ne _ _ _ _ hid] at hjb; exact h.endedStarted id' jb hjb he
        · intro id' jb d t hjb hrw hp
          by_cases hid : id' = id
          · subst hid; rw [upd_self] at hjb; cases hjb; simp at hrw
          · rw [upd_ne _ _ _ _ hid] at hjb
            rw [upd_ne _ _ _ _ hid] at hp
            exact h.mutex id' jb d t hjb hrw hp
        · intro id' hp
          by_cases hid : id' = id
          · subst hid; rw [upd_self] at hp; cases hp
          · rw [upd_ne _ _ _ _ hid] at hp; exact h.waitMem id' hp
        · intro id' lyr hp
          by_cases hid : id' = id
          · subst hid; rw [upd_self] at hp; cases hp
          · rw [upd_ne _ _ _ _ hid] at hp
            obtain ⟨jb, hjb, hs, he⟩ := h.doneEnded id' lyr hp
            exact ⟨jb, by rw [upd_ne _ _ _ _ hid]; exact hjb, hs, he⟩
        · intro id' g hp
          by_cases hid : id' = id
          · subst hid; simp [upd_self]
          · rw [upd_ne _ _ _ _ hid] at hp
            rw [upd_ne _ _ _ _ hid]
            exact h.pendJobs id' g hp
        · intro id' hmem
          by_cases hid : id' = id
          · subst hid; simp [upd_self]
          · rw [upd_ne _ _ _ _ hid]; exact h.waitJobs id' hmem
        · intro id' hmem
          obtain ⟨jb, hjb, hr2, he⟩ := h.chainJobs id' hmem
          have hid : id' ≠ id := by
            intro e; subst e; rw [hjb] at hfresh; cases hfresh
          exact ⟨jb, by rw [upd_ne _ _ _ _ hid]; exact hjb, hr2, he⟩
        · exact h.chainNodup
  | startHead =>
    cases hc : s.chain with
    | nil => simp only [step, hc]; exact h
    | cons id rest =>
      cases hj : s.jobs id with
      | none => simp only [step, hc, hj]; exact h
      | some jb =>
        by_cases hst : jb.started = true
        · simp only [step, hc, hj, if_pos hst]; exact h
        · have hne : jb.ended = false := by
            cases he : jb.ended
            · rfl
            · exact absurd (h.endedStarted id jb hj he) hst
          simp only [step, hc, hj, if_neg hst]
          constructor <;> dsimp only
          · intro id' jb' hjb' he'
            by_cases hid : id' = id
            · subst hid; rw [upd_self] at hjb'; cases hjb'; rfl
            · rw [upd_ne _ _ _ _ hid] at hjb'; exact h.endedStarted id' jb' hjb' he'
          · intro id' jb' d t hjb' hrw hp
            by_cases hid : id' = id
            · subst hid
              rw [upd_self] at hjb'; cases hjb'
              exact ⟨rfl, rfl, hne⟩
            · rw [upd_ne _ _ _ _ hid] at hjb'
              rw [upd_ne _ _ _ _ hid] at hp
              have hmx := h.mutex id' jb' d t hjb' hrw hp
              rw [hc] at hmx
              exact hmx
          · intro id' hp
            by_cases hid : id' = id
            · subst hid; rw [upd_self] at hp; cases hp
            · rw [upd_ne _ _ _ _ hid] at hp
              exact mem_filter_ne.mpr ⟨h.waitMem id' hp, hid⟩
          · intro id' lyr hp
            by_cases hid : id' = id
            · subst hid; rw [upd_self] at hp; cases hp
            · rw [upd_ne _ _ _ _ hid] at hp
              obtain ⟨jb', hjb', hs, he⟩ := h.doneEnded id' lyr hp
              exact ⟨jb', by rw [upd_ne _ _ _ _ hid]; exact hjb', hs, he⟩
          · intro id' g hp
            by_cases hid : id' = id
            · subst hid; simp [upd_self]
            · rw [upd_ne _ _ _ _ hid] at hp
              rw [upd_ne _ _ _ _ hid]
              exact h.pendJobs id' g hp
          · intro id' hmem
            have hm := mem_filter_ne.mp hmem
            by_cases hid : id' = id
            · subst hid; simp [upd_self]
            · rw [upd_ne _ _ _ _ hid]; exact h.waitJobs id' hm.1
          · intro id' hmem
            obtain ⟨jb', hjb', hr', he'⟩ := h.chainJobs id' (by rw [hc]; exact hmem)
            by_cases hid : id' = id
            · subst hid
              rw [hj] at hjb'; cases hjb'
              exact ⟨{ jb with started := true }, by rw [upd_self], hr', he'⟩
            · exact ⟨jb', by rw [upd_ne _ _ _ _ hid]; exact hjb', hr', he'⟩
          · rw [← hc]; exact h.chainNodup
  | bodyProgress id =>
    cases hj : s.jobs id with
    | none => simp only [step, hj]; exact h
    | some jb =>
      by_cases hcond : jb.started = true ∧ ¬ jb.ended = true
      · cases hp : s.pending id with
        | none => simp only [step, hj, if_pos hcond, hp]; exact h
        | some g =>
          cases g with
          | waiting => simp only [step, hj, if_pos hcond, hp]; exact h
          | error => simp only [step, hj, if_pos hcond, hp]; exact h
          | cancelled => simp only [step, hj, if_pos hcond, hp]; exact h
          | done lyr => simp only [step, hj, if_pos hcond, hp]; exact h
          | inProgress d t =>
            simp only [step, hj, if_pos hcond, hp]
            constructor <;> dsimp only
            · exact h.endedStarted
            · intro id' jb' d' t' hjb' hrw hp'
              by_cases hid : id' = id
              · subst hid
                rw [upd_self] at hp'
                cases hp'
                exact h.mutex _ jb' d t hjb' hrw hp
              · rw [upd_ne _ _ _ _ hid] at hp'
                exact h.mutex id' jb' d' t' hjb' hrw hp'
            · intro id' hp'
              by_cases hid : id' = id
              · subst hid; rw [upd_self] at hp'; cases hp'
              · rw [upd_ne _ _ _ _ hid] at hp'; exact h.waitMem id' hp'
            · intro id' lyr hp'
              by_cases hid : id' = id
              · subst hid; rw [upd_self] at hp'; cases hp'
              · rw [upd_ne _ _ _ _ hid] at hp'; exact h.doneEnded id' lyr hp'
            · intro id' g hp'
              by_cases hid : id' = id
              · subst hid; simp [hj]
              · rw [upd_ne _ _ _ _ hid] at hp'; exact h.pendJobs id' g hp'
            · exact h.waitJobs
            · exact h.chainJobs
            · exact h.chainNodup
      · simp only [step, hj]; rw [if_neg hcond]; exact h
  | bodyError id =>
    cases hj : s.jobs id with
    | none => simp only [step, hj]; exact h
    | some jb =>
      by_cases hcond : jb.started = true ∧ ¬ jb.ended = true
      · cases hp : s.pending id with
        | none => simp only [step, hj, if_pos hcond, hp]; exact h
        | some g =>
          cases g with
          | waiting => simp only [step, hj, if_pos hcond, hp]; exact h
          | error => simp only [step, hj, if_pos hcond, hp]; exact h
          | cancelled => simp only [step, hj, if_pos hcond, hp]; exact h
          | done lyr => simp only [step, hj, if_pos hcond, hp]; exact h
          | inProgress d t =>
            simp only [step, hj, if_pos hcond, hp]
            constructor <;> dsimp only
            · exact h.endedStarted
            · intro id' jb' d' t' hjb' hrw hp'
              by_cases hid : id' = id
              · subst hid; rw [upd_self] at hp'; cases hp'
              · rw [upd_ne _ _ _ _ hid] at hp'
                exact h.mutex id' jb' d' t' hjb' hrw hp'
            · intro id' hp'
              by_cases hid : id' = id
              · subst hid; rw [upd_self] at hp'; cases hp'
              · rw [upd_ne _ _ _ _ hid] at hp'; exact h.waitMem id' hp'
            · intro id' lyr hp'
              by_cases hid : id' = id
              · subst hid; rw [upd_self] at hp'; cases hp'
              · rw [upd_ne _ _ _ _ hid] at hp'; exact h.doneEnded id' lyr hp'
            · intro id' g hp'
              by_cases hid : id' = id
              · subst hid; simp [hj]
              · rw [upd_ne _ _ _ _ hid] at hp'; exact h.pendJobs id' g hp'
            · exact h.waitJobs
            · exact h.chainJobs
            · exact h.chainNodup
      · simp only [step, hj]; rw [if_neg hcond]; exact h
  | bodyEnd id lyr =>
    cases hj : s.jobs id with
    | none => simp only [step, hj]; exact h
    | some jb =>
      by_cases hcond : jb.started = true ∧ ¬ jb.ended = true ∧
          (jb.realWork = true → s.chain.head? = some id)
      · obtain ⟨hst, hnend, hhead⟩ := hcond
        have hne : jb.ended = false := by
          cases he : jb.ended
          · rfl
          · exact absurd he hnend
        simp only [step, hj, if_pos (⟨hst, hnend, hhead⟩ :
          jb.started = true ∧ ¬ jb.ended = true ∧
            (jb.realWork = true → s.chain.head? = some id))]
        have hEP := endPending_eq s.pending id lyr
        constructor <;> dsimp only
        · intro id' jb' hjb' he'
          by_cases hid : id' = id
          · subst hid; rw [upd_self] at hjb'; cases hjb'; exact hst
          · rw [upd_ne _ _ _ _ hid] at hjb'; exact h.endedStarted id' jb' hjb' he'
        · intro id' jb' d t hjb' hrw' hp'
          by_cases hid : id' = id
          · subst hid
            rw [upd_self] at hjb'; cases hjb'
            exfalso
            rcases hEP with ⟨heq, d0, t0, hip⟩ | ⟨hnip, heq⟩
            · rw [heq, upd_self] at hp'; cases hp'
            · rw [heq] at hp'; exact hnip d t hp'
          · rw [upd_ne _ _ _ _ hid] at hjb'
            have hpold : s.pending id' = some (Generation.inProgress d t) := by
              rcases hEP with ⟨heq, _, _, _⟩ | ⟨_, heq⟩
              · rw [heq, upd_ne _ _ _ _ hid] at hp'; exact hp'
              · rw [heq] at hp'; exact hp'
            obtain ⟨hh, hs, he2⟩ := h.mutex id' jb' d t hjb' hrw' hpold
            by_cases hrwj : jb.realWork = true
            · exfalso
              have := hhead hrwj
              rw [hh] at this
              exact hid (Option.some.inj this)
            · have hrwf : jb.realWork = false := by
                cases hx : jb.realWork
                · rfl
                · exact absurd hx hrwj
              rw [hrwf]
              exact ⟨hh, hs, he2⟩
        · intro id' hp'
          have hpold : s.pending id' = some Generation.waiting := by
            rcases hEP with ⟨heq, _, _, _⟩ | ⟨_, heq⟩
            · by_cases hid : id' = id
              · subst hid; rw [heq, upd_self] at hp'; cases hp'
              · rw [heq, upd_ne _ _ _ _ hid] at hp'; exact hp'
            · rw [heq] at hp'; exact hp'
          exact h.waitMem id' hpold
        · intro id' lyr2 hp'
          by_cases hid : id' = id
          · subst hid
            exact ⟨{ jb with ended := true }, by rw [upd_self], hst, rfl⟩
          · have hpold : s.pending id' = some (Generation.done lyr2) := by
              rcases hEP with ⟨heq, _, _, _⟩ | ⟨_, heq⟩
              · rw [heq, upd_ne _ _ _ _ hid] at hp'; exact hp'
              · rw [heq] at hp'; exact hp'
            obtain ⟨jb', hjb', hs, he2⟩ := h.doneEnded id' lyr2 hpold
            exact ⟨jb', by rw [upd_ne _ _ _ _ hid]; exact hjb', hs, he2⟩
        · intro id' g hp'
          by_cases hid : id' = id
          · subst hid; simp [upd_self]
          · rw [upd_ne _ _ _ _ hid]
            have hpold : ∃ g0, s.pending id' = some g0 := by
              rcases hEP with ⟨heq, _, _, _⟩ | ⟨_, heq⟩
              · rw [heq, upd_ne _ _ _ _ hid] at hp'; exact ⟨g, hp'⟩
              · rw [heq] at hp'; exact ⟨g, hp'⟩
            obtain ⟨g0, hg0⟩ := hpold
            exact h.pendJobs id' g0 hg0
        · intro id' hmem
          by_cases hid : id' = id
          · subst hid; simp [upd_self]
          · rw [upd_ne _ _ _ _ hid]; exact h.waitJobs id' hmem
        · intro id' hmem
          by_cases hrwj : jb.realWork = true
          · rw [hrwj] at hmem
            simp only [if_pos rfl] at hmem
            have hmem2 : id' ∈ s.chain := by
              cases hc : s.chain with
              | nil => rw [hc] at hmem; cases hmem
              | cons hd tl =>
                rw [hc] at hmem
                exact List.mem_cons_of_mem hd hmem
            obtain ⟨jb', hjb', hr', he2⟩ := h.chainJobs id' hmem2
            have hid : ¬ id' = id := by
              intro e
              subst e
              have hhd := hhead hrwj
              cases hc : s.chain with
              | nil => rw [hc] at hhd; cases hhd
              | cons hd tl =>
                rw [hc] at hhd hmem
                have : hd = id' := Option.some.inj hhd.symm |>.symm
                subst this
                have hnd := h.chainNodup
                rw [hc] at hnd
                exact (List.nodup_cons.mp hnd).1 hmem
            exact ⟨jb', by rw [upd_ne _ _ _ _ hid]; exact hjb', hr', he2⟩
          · have hrwf : jb.realWork = false := by
              cases hx : jb.realWork
              · rfl
              · exact absurd hx hrwj
            rw [hrwf] at hmem
            simp only [Bool.false_eq_true, if_neg] at hmem
            have hmem2 : id' ∈ s.chain := by simpa using hmem
            obtain ⟨jb', hjb', hr', he2⟩ := h.chainJobs id' hmem2
            have hid : ¬ id' = id := by
              intro e
              subst e
              rw [hj] at hjb'
              cases hjb'
              rw [hr'] at hrwf
              cases hrwf
            exact ⟨jb', by rw [upd_ne _ _ _ _ hid]; exact hjb', hr', he2⟩
        · by_cases hrwj : jb.realWork = true
          · rw [hrwj]
            simp only [if_pos rfl]
            exact nodup_tail _ h.chainNodup
          · have hrwf : jb.realWork = false := by
              cases hx : jb.realWork
              · rfl
              · exact absurd hx hrwj
            rw [hrwf]
            simpa using h.chainNodup
      · simp only [step, hj]; rw [if_neg hcond]; exact h
  | fireTimeout id =>
    by_cases ht : s.timers id = true
    · simp only [step, if_pos ht]
      constructor <;> dsimp only
      · exact h.endedStarted
      · intro id' jb' d t hjb' hrw hp
        by_cases hid : id' = id
        · subst hid; rw [upd_self] at hp; cases hp
        · rw [upd_ne _ _ _ _ hid] at hp
          exact h.mutex id' jb' d t hjb' hrw hp
      · intro id' hp
        by_cases hid : id' = id
        · subst hid; rw [upd_self] at hp; cases hp
        · rw [upd_ne _ _ _ _ hid] at hp
          exact mem_filter_ne.mpr ⟨h.waitMem id' hp, hid⟩
      · intro id' lyr hp
        by_cases hid : id' = id
        · subst hid; rw [upd_self] at hp; cases hp
        · rw [upd_ne _ _ _ _ hid] at hp; exact h.doneEnded id' lyr hp
      · intro id' g hp
        by_cases hid : id' = id
        · subst hid; rw [upd_self] at hp; cases hp
        · rw [upd_ne _ _ _ _ hid] at hp; exact h.pendJobs id' g hp
      · intro id' hmem
        exact h.waitJobs id' (mem_filter_ne.mp hmem).1
      · exact h.chainJobs
      · exact h.chainNodup
    · simp only [step]; rw [if_neg ht]; exact h
  | poll id =>
    cases hp : s.pending id with
    | none => simp only [step, hp]; exact h
    | some g =>
      have hreset : Invs { s with timers := upd s.timers id true } :=
        ⟨h.endedStarted, h.mutex, h.waitMem, h.doneEnded, h.pendJobs, h.waitJobs,
          h.chainJobs, h.chainNodup⟩
      cases g with
      | waiting => simp only [step, hp]; exact hreset
      | inProgress d t => simp only [step, hp]; exact hreset
      | error => simp only [step, hp]; exact hreset
      | cancelled => simp only [step, hp]; exact hreset
      | done lyr =>
        simp only [step, hp]
        constructor <;> dsimp only
        · exact h.endedStarted
        · intro id' jb' d t hjb' hrw hp'
          by_cases hid : id' = id
          · subst hid; rw [upd_self] at hp'; cases hp'
          · rw [upd_ne _ _ _ _ hid] at hp'
            exact h.mutex id' jb' d t hjb' hrw hp'
        · intro id' hp'
          by_cases hid : id' = id
          · subst hid; rw [upd_self] at hp'; cases hp'
          · rw [upd_ne _ _ _ _ hid] at hp'; exact h.waitMem id' hp'
        · intro id' lyr2 hp'
          by_cases hid : id' = id
          · subst hid; rw [upd_self] at hp'; cases hp'
          · rw [upd_ne _ _ _ _ hid] at hp'; exact h.doneEnded id' lyr2 hp'
        · intro id' g hp'
          by_cases hid : id' = id
          · subst hid; rw [upd_self] at hp'; cases hp'
          · rw [upd_ne _ _ _ _ hid] at hp'; exact h.pendJobs id' g hp'
        · exact h.waitJobs
        · exact h.chainJobs
        · exact h.chainNodup

theorem invs_run (s : SysState) (acts : List Act) (h : Invs s) : Invs (run s acts) := by
  induction acts generalizing s with
  | nil => exact h
  | cons a rest ih => exact ih (step s a) (invs_step s a h)

/-! ## Claim theorems -/

/-- **C7.** Job creation classifies a request as `Waiting` exactly when the
count of distinct stored hashes among the job's unique line-text hashes is
strictly below the number of unique hashes; otherwise the job is created
directly `InProgress` with `done = 0` and `total` = number of lines, and it
is never placed in the waiting queue. -/
theorem c7_classification (db : List (String × String)) (ldb : List (String × Line))
    (acts : List Act) (id : String) (lines : List Line)
    (hfresh : (run (initS db ldb) acts).jobs id = none) (hne : lines ≠ []) :
    (countDistinctPresent (run (initS db ldb) acts).db (uniqueWordHashes lines) <
        (uniqueWordHashes lines).length →
      (step (run (initS db ldb) acts) (Act.generate id lines)).pending id =
          some Generation.waiting ∧
        id ∈ (step (run (initS db ldb) acts) (Act.generate id lines)).waiting) ∧
    (¬ countDistinctPresent (run (initS db ldb) acts).db (uniqueWordHashes lines) <
        (uniqueWordHashes lines).length →
      (step (run (initS db ldb) acts) (Act.generate id lines)).pending id =
          some (Generation.inProgress 0 lines.length) ∧
        ¬ id ∈ (step (run (initS db ldb) acts) (Act.generate id lines)).waiting) := by
  have hI := invs_run (initS db ldb) acts (invs_init db ldb)
  set s := run (initS db ldb) acts with hs
  have hcond : ¬ ((s.jobs id).isSome = true ∨ lines = []) := by
    simp [hfresh, hne]
  constructor
  · intro hlt
    have hu : hasAnyUncached s.db lines = true := by
      simp [hasAnyUncached, hlt]
    simp only [step]
    rw [if_neg hcond]
    simp only [createJob, if_pos hu]
    constructor
    · dsimp only; rw [upd_self]
    · simp
  · intro hge
    have hu : ¬ hasAnyUncached s.db lines = true := by
      simp [hasAnyUncached, hge]
    simp only [step]
    rw [if_neg hcond]
    simp only [createJob, if_neg hu]
    constructor
    · dsimp only; rw [upd_self]
    · dsimp only
      intro hmem
      have := hI.waitJobs id hmem
      rw [hfresh] at this
      cases this

theorem c7_classification_witness :
    (run (initS [("i1", "a")] []) []).jobs "g1" = none ∧
    ([(⟨0, "a"⟩ : Line)] ≠ []) ∧
    ((step (run (initS [("i1", "a")] []) []) (Act.generate "g1" [⟨0, "a"⟩])).pending "g1" =
        some (Generation.inProgress 0 1) ∧
      ¬ "g1" ∈ (step (run (initS [("i1", "a")] []) []) (Act.generate "g1" [⟨0, "a"⟩])).waiting) :=
  ⟨rfl, by decide,
    (c7_classification [("i1", "a")] [] [] "g1" [⟨0, "a"⟩] rfl (by decide)).2 (by decide)⟩

/-- **C9.** When no cached lyrics exist for the track and the lyric
provider reports not-found, `generate` answers 422 and leaves the state
untouched (no generation id allocated, no registry or waiting-queue entry);
any other lyric-fetch failure answers 500, also without creating a job. -/
theorem c9_lyrics_not_found :
    ∀ (s : SysState) (trackId id : String),
      generateHandler s trackId id [] Provider.notFound = (GenResp.status422, s) ∧
      generateHandler s trackId id [] Provider.failure = (GenResp.status500, s) := by
  intro s trackId id
  constructor <;> rfl

/-- **C1 (counterexample to the strong form).**  Two jobs whose lines are
fully cached are `InProgress` simultaneously, refuting "at most one job
occupies `InProgress` globally at any instant". -/
theorem c1_counterexample :
    ("g1" : String) ≠ "g2" ∧
    (run (initS [("i1", "a")] [])
        [Act.generate "g1" [⟨0, "a"⟩], Act.generate "g2" [⟨0, "a"⟩]]).pending "g1" =
      some (Generation.inProgress 0 1) ∧
    (run (initS [("i1", "a")] [])
        [Act.generate "g1" [⟨0, "a"⟩], Act.generate "g2" [⟨0, "a"⟩]]).pending "g2" =
      some (Generation.inProgress 0 1) := by
  refine ⟨by decide, rfl, rfl⟩

/-- **C1 (amended).**  At most one job with real generation work (some
uncached phrase at creation) is `InProgress` at any reachable instant: two
distinct `realWork` jobs are never simultaneously `inProgress`.  Fully
cached jobs bypass the chain, as the concrete run in the second conjunct
shows: a cached job and a real-work job are `inProgress` together. -/
theorem c1_real_work_mutex :
    (∀ (db : List (String × String)) (ldb : List (String × Line)) (acts : List Act)
        (i j : String) (jbi jbj : Job) (di ti : Nat),
      ¬ i = j →
      (run (initS db ldb) acts).jobs i = some jbi → jbi.realWork = true →
      (run (initS db ldb) acts).jobs j = some jbj → jbj.realWork = true →
      (run (initS db ldb) acts).pending i = some (Generation.inProgress di ti) →
      ∀ dj tj, ¬ (run (initS db ldb) acts).pending j = some (Generation.inProgress dj tj)) ∧
    ((run (initS [("i1", "a")] [])
        [Act.generate "gc" [⟨0, "a"⟩], Act.generate "gr" [⟨0, "b"⟩], Act.startHead]).pending "gc" =
      some (Generation.inProgress 0 1) ∧
     (run (initS [("i1", "a")] [])
        [Act.generate "gc" [⟨0, "a"⟩], Act.generate "gr" [⟨0, "b"⟩], Act.startHead]).pending "gr" =
      some (Generation.inProgress 0 1) ∧
     (Option.map Job.realWork ((run (initS [("i1", "a")] [])
        [Act.generate "gc" [⟨0, "a"⟩], Act.generate "gr" [⟨0, "b"⟩], Act.startHead]).jobs "gc") =
      some false) ∧
     (Option.map Job.realWork ((run (initS [("i1", "a")] [])
        [Act.generate "gc" [⟨0, "a"⟩], Act.generate "gr" [⟨0, "b"⟩], Act.startHead]).jobs "gr") =
      some true)) := by
  constructor
  · intro db ldb acts i j jbi jbj di ti hij hi hri hj hrj hpi dj tj hpj
    have hI := invs_run (initS db ldb) acts (invs_init db ldb)
    obtain ⟨hhi, _, _⟩ := hI.mutex i jbi di ti hi hri hpi
    obtain ⟨hhj, _, _⟩ := hI.mutex j jbj dj tj hj hrj hpj
    rw [hhi] at hhj
    exact hij (Option.some.inj hhj)
  · exact ⟨rfl, rfl, rfl, rfl⟩

theorem c1_real_work_mutex_witness :
    (¬ ("g0" : String) = "g1") ∧
    (run (initS [] []) [Act.generate "g0" [⟨0, "a"⟩], Act.generate "g1" [⟨0, "b"⟩],
        Act.startHead]).jobs "g0" = some ⟨[⟨0, "a"⟩], true, true, false⟩ ∧
    (run (initS [] []) [Act.generate "g0" [⟨0, "a"⟩], Act.generate "g1" [⟨0, "b"⟩],
        Act.startHead]).jobs "g1" = some ⟨[⟨0, "b"⟩], true, false, false⟩ ∧
    (run (initS [] []) [Act.generate "g0" [⟨0, "a"⟩], Act.generate "g1" [⟨0, "b"⟩],
        Act.startHead]).pending "g0" = some (Generation.inProgress 0 1) ∧
    (∀ dj tj, ¬ (run (initS [] []) [Act.generate "g0" [⟨0, "a"⟩], Act.generate "g1" [⟨0, "b"⟩],
        Act.startHead]).pending "g1" = some (Generation.inProgress dj tj)) :=
  ⟨by decide, rfl, rfl, rfl,
    c1_real_work_mutex.1 [] [] [Act.generate "g0" [⟨0, "a"⟩], Act.generate "g1" [⟨0, "b"⟩],
        Act.startHead] "g0" "g1" ⟨[⟨0, "a"⟩], true, true, false⟩ ⟨[⟨0, "b"⟩], true, false, false⟩
      0 1 (by decide) rfl rfl rfl rfl rfl⟩

theorem findIdx_filter_le (l : List String) (x h : String) (hne : ¬ x = h) :
    (l.filter (fun w => ¬ w = h)).findIdx (fun w => w = x) ≤
      l.findIdx (fun w => w = x) := by
  induction l with
  | nil => simp
  | cons a t ih =>
    by_cases hah : a = h
    · have hax : ¬ a = x := fun e => hne (hah ▸ e ▸ rfl)
      rw [show (a :: t).filter (fun w => ¬ w = h) = t.filter (fun w => ¬ w = h) by
        simp [List.filter_cons, hah]]
      rw [show (a :: t).findIdx (fun w => w = x) = t.findIdx (fun w => w = x) + 1 by
        simp [List.findIdx_cons, hax]]
      exact Nat.le_succ_of_le ih
    · rw [show (a :: t).filter (fun w => ¬ w = h) = a :: t.filter (fun w => ¬ w = h) by
        simp [List.filter_cons, hah]]
      by_cases hax : a = x
      · rw [show (a :: t.filter (fun w => ¬ w = h)).findIdx (fun w => w = x) = 0 by
          simp [List.findIdx_cons, hax]]
        exact Nat.zero_le _
      · rw [show (a :: t.filter (fun w => ¬ w = h)).findIdx (fun w => w = x) =
            (t.filter (fun w => ¬ w = h)).findIdx (fun w => w = x) + 1 by
          simp [List.findIdx_cons, hax]]
        rw [show (a :: t).findIdx (fun w => w = x) = t.findIdx (fun w => w = x) + 1 by
          simp [List.findIdx_cons, hax]]
        exact Nat.succ_le_succ ih

theorem findIdx_filter_lt (l : List String) (x h : String) (hne : ¬ x = h)
    (hlt : l.findIdx (fun w => w = h) < l.findIdx (fun w => w = x)) :
    (l.filter (fun w => ¬ w = h)).findIdx (fun w => w = x) <
      l.findIdx (fun w => w = x) := by
  induction l with
  | nil => simp at hlt
  | cons a t ih =>
    by_cases hah : a = h
    · have hax : ¬ a = x := fun e => hne (hah ▸ e ▸ rfl)
      rw [show (a :: t).filter (fun w => ¬ w = h) = t.filter (fun w => ¬ w = h) by
        simp [List.filter_cons, hah]]
      rw [show (a :: t).findIdx (fun w => w = x) = t.findIdx (fun w => w = x) + 1 by
        simp [List.findIdx_cons, hax]]
      exact Nat.lt_succ_of_le (findIdx_filter_le t x h hne)
    · by_cases hax : a = x
      · rw [show (a :: t).findIdx (fun w => w = x) = 0 by
          simp [List.findIdx_cons, hax]] at hlt
        cases hlt
      · have hstep : (a :: t).findIdx (fun w => w = h) =
            t.findIdx (fun w => w = h) + 1 := by
          simp [List.findIdx_cons, hah]
        have hstep2 : (a :: t).findIdx (fun w => w = x) =
            t.findIdx (fun w => w = x) + 1 := by
          simp [List.findIdx_cons, hax]
        rw [hstep, hstep2] at hlt
        rw [show (a :: t).filter (fun w => ¬ w = h) = a :: t.filter (fun w => ¬ w = h) by
          simp [List.filter_cons, hah]]
        rw [show (a :: t.filter (fun w => ¬ w = h)).findIdx (fun w => w = x) =
            (t.filter (fun w => ¬ w = h)).findIdx (fun w => w = x) + 1 by
          simp [List.findIdx_cons, hax]]
        rw [hstep2]
        exact Nat.succ_lt_succ (ih (Nat.lt_of_succ_lt_succ hlt))

/-- **C5.** A `Waiting` job's `queuePosition` as served by `poll` equals
the index of its entry in the waiting list plus 2, recomputed against the
current list, hence always at least 2 while the entry is present; and when
an earlier job of the list starts (chain head picked up by its callback),
the position strictly decreases. -/
theorem c5_queue_position :
    (∀ (db : List (String × String)) (ldb : List (String × Line)) (acts : List Act)
        (id : String),
      (run (initS db ldb) acts).pending id = some Generation.waiting →
      pollResult (run (initS db ldb) acts) id =
        some (Snap.waiting
          (((run (initS db ldb) acts).waiting.findIdx (fun w => w = id) : Int) + 2)) ∧
      2 ≤ ((run (initS db ldb) acts).waiting.findIdx (fun w => w = id) : Int) + 2) ∧
    (∀ (s : SysState) (hd : String) (rest : List String) (jb : Job) (id : String),
      s.chain = hd :: rest → s.jobs hd = some jb → ¬ jb.started = true →
      ¬ id = hd → id ∈ s.waiting →
      s.waiting.findIdx (fun w => w = hd) < s.waiting.findIdx (fun w => w = id) →
      jsIndexOf (step s Act.startHead).waiting id + 2 < jsIndexOf s.waiting id + 2) := by
  constructor
  · intro db ldb acts id hw
    have hI := invs_run (initS db ldb) acts (invs_init db ldb)
    have hmem := hI.waitMem id hw
    constructor
    · simp only [pollResult, hw, jsIndexOf, if_pos hmem]
    · have : (0 : Int) ≤ ((run (initS db ldb) acts).waiting.findIdx (fun w => w = id) : Int) :=
        Int.natCast_nonneg _
      omega
  · intro s hd rest jb id hc hj hst hne hmem hlt
    simp only [step, hc, hj, if_neg hst]
    have hmem2 : id ∈ s.waiting.filter (fun w => ¬ w = hd) :=
      mem_filter_ne.mpr ⟨hmem, hne⟩
    rw [jsIndexOf, if_pos hmem2, jsIndexOf, if_pos hmem]
    have := findIdx_filter_lt s.waiting id hd hne hlt
    omega

theorem c5_queue_position_witness :
    ((run (initS [] []) [Act.generate "g0" [⟨0, "a"⟩], Act.generate "g1" [⟨0, "b"⟩]]).pending
        "g1" = some Generation.waiting) ∧
    (pollResult (run (initS [] []) [Act.generate "g0" [⟨0, "a"⟩], Act.generate "g1" [⟨0, "b"⟩]])
        "g1" = some (Snap.waiting 3)) ∧
    (jsIndexOf (step (run (initS [] [])
        [Act.generate "g0" [⟨0, "a"⟩], Act.generate "g1" [⟨0, "b"⟩]]) Act.startHead).waiting
        "g1" + 2 <
      jsIndexOf (run (initS [] [])
        [Act.generate "g0" [⟨0, "a"⟩], Act.generate "g1" [⟨0, "b"⟩]]).waiting "g1" + 2) :=
  ⟨rfl,
    by
      have h := (c5_queue_position.1 [] [] [Act.generate "g0" [⟨0, "a"⟩],
        Act.generate "g1" [⟨0, "b"⟩]] "g1" rfl).1
      simpa using h,
    c5_queue_position.2 (run (initS [] [])
        [Act.generate "g0" [⟨0, "a"⟩], Act.generate "g1" [⟨0, "b"⟩]]) "g0" ["g1"]
      ⟨[⟨0, "a"⟩], true, false, false⟩ "g1" rfl rfl (by decide) (by decide) (by decide)
      (by decide)⟩

/-- After its `callback` has started, a job deleted from the registry can
never be re-registered: the only re-insertion point, `setInProgress()` at
callback start, runs once per job. -/
def DeadPending (id : String) (s : SysState) : Prop :=
  (∃ jb, s.jobs id = some jb ∧ jb.started = true) ∧ s.pending id = none

theorem deadPending_step (id : String) (s : SysState) (a : Act)
    (h : DeadPending id s) : DeadPending id (step s a) := by
  obtain ⟨⟨jb, hjb, hst⟩, hpn⟩ := h
  cases a with
  | generate id2 lines =>
    by_cases hg : (s.jobs id2).isSome = true ∨ lines = []
    · simp only [step, if_pos hg]; exact ⟨⟨jb, hjb, hst⟩, hpn⟩
    · have hid : ¬ id = id2 := by
        intro e
        subst e
        exact hg (Or.inl (by simp [hjb]))
      simp only [step]
      rw [if_neg hg]
      unfold createJob
      by_cases hu : hasAnyUncached s.db lines = true
      · rw [if_pos hu]
        exact ⟨⟨jb, by dsimp only; rw [upd_ne _ _ _ _ hid]; exact hjb, hst⟩,
          by dsimp only; rw [upd_ne _ _ _ _ hid]; exact hpn⟩
      · rw [if_neg hu]
        exact ⟨⟨jb, by dsimp only; rw [upd_ne _ _ _ _ hid]; exact hjb, hst⟩,
          by dsimp only; rw [upd_ne _ _ _ _ hid]; exact hpn⟩
  | startHead =>
    cases hc : s.chain with
    | nil => simp only [step, hc]; exact ⟨⟨jb, hjb, hst⟩, hpn⟩
    | cons hd rest =>
      cases hjh : s.jobs hd with
      | none => simp only [step, hc, hjh]; exact ⟨⟨jb, hjb, hst⟩, hpn⟩
      | some jbh =>
        by_cases hsh : jbh.started = true
        · simp only [step, hc, hjh, if_pos hsh]; exact ⟨⟨jb, hjb, hst⟩, hpn⟩
        · have hid : ¬ id = hd := by
            intro e
            subst e
            rw [hjb] at hjh
            cases hjh
            exact hsh hst
          simp only [step, hc, hjh, if_neg hsh]
          exact ⟨⟨jb, by dsimp only; rw [upd_ne _ _ _ _ hid]; exact hjb, hst⟩,
            by dsimp only; rw [upd_ne _ _ _ _ hid]; exact hpn⟩
  | bodyProgress id2 =>
    cases hj2 : s.jobs id2 with
    | none => simp only [step, hj2]; exact ⟨⟨jb, hjb, hst⟩, hpn⟩
    | some jb2 =>
      by_cases hcond : jb2.started = true ∧ ¬ jb2.ended = true
      · cases hp2 : s.pending id2 with
        | none => simp only [step, hj2, if_pos hcond, hp2]; exact ⟨⟨jb, hjb, hst⟩, hpn⟩
        | some g =>
          have hid : ¬ id = id2 := by
            intro e; subst e; rw [hpn] at hp2; cases hp2
          cases g with
          | inProgress d t =>
            simp only [step, hj2, if_pos hcond, hp2]
            exact ⟨⟨jb, hjb, hst⟩, by dsimp only; rw [upd_ne _ _ _ _ hid]; exact hpn⟩
          | waiting => simp only [step, hj2, if_pos hcond, hp2]; exact ⟨⟨jb, hjb, hst⟩, hpn⟩
          | error => simp only [step, hj2, if_pos hcond, hp2]; exact ⟨⟨jb, hjb, hst⟩, hpn⟩
          | cancelled => simp only [step, hj2, if_pos hcond, hp2]; exact ⟨⟨jb, hjb, hst⟩, hpn⟩
          | done lyr => simp only [step, hj2, if_pos hcond, hp2]; exact ⟨⟨jb, hjb, hst⟩, hpn⟩
      · simp only [step, hj2]; rw [if_neg hcond]; exact ⟨⟨jb, hjb, hst⟩, hpn⟩
  | bodyError id2 =>
    cases hj2 : s.jobs id2 with
    | none => simp only [step, hj2]; exact ⟨⟨jb, hjb, hst⟩, hpn⟩
    | some jb2 =>
      by_cases hcond : jb2.started = true ∧ ¬ jb2.ended = true
      · cases hp2 : s.pending id2 with
        | none => simp only [step, hj2, if_pos hcond, hp2]; exact ⟨⟨jb, hjb, hst⟩, hpn⟩
        | some g =>
          have hid : ¬ id = id2 := by
            intro e; subst e; rw [hpn] at hp2; cases hp2
          cases g with
          | inProgress d t =>
            simp only [step, hj2, if_pos hcond, hp2]
            exact ⟨⟨jb, hjb, hst⟩, by dsimp only; rw [upd_ne _ _ _ _ hid]; exact hpn⟩
          | waiting => simp only [step, hj2, if_pos hcond, hp2]; exact ⟨⟨jb, hjb, hst⟩, hpn⟩
          | error => simp only [step, hj2, if_pos hcond, hp2]; exact ⟨⟨jb, hjb, hst⟩, hpn⟩
          | cancelled => simp only [step, hj2, if_pos hcond, hp2]; exact ⟨⟨jb, hjb, hst⟩, hpn⟩
          | done lyr => simp only [step, hj2, if_pos hcond, hp2]; exact ⟨⟨jb, hjb, hst⟩, hpn⟩
      · simp only [step, hj2]; rw [if_neg hcond]; exact ⟨⟨jb, hjb, hst⟩, hpn⟩
  | bodyEnd id2 lyr =>
    cases hj2 : s.jobs id2 with
    | none => simp only [step, hj2]; exact ⟨⟨jb, hjb, hst⟩, hpn⟩
    | some jb2 =>
      by_cases hcond : jb2.started = true ∧ ¬ jb2.ended = true ∧
          (jb2.realWork = true → s.chain.head? = some id2)
      · simp only [step, hj2, if_pos hcond]
        have hpend : endPending s.pending id2 lyr id = none := by
          rcases endPending_eq s.pending id2 lyr with ⟨heq, d0, t0, hip⟩ | ⟨_, heq⟩
          · by_cases hid : id = id2
            · subst hid; rw [hpn] at hip; cases hip
            · rw [heq, upd_ne _ _ _ _ hid]; exact hpn
          · rw [heq]; exact hpn
        by_cases hid : id = id2
        · subst hid
          rw [hjb] at hj2
          cases hj2
          exact ⟨⟨{ jb with ended := true }, by dsimp only; rw [upd_self], hst⟩, hpend⟩
        · exact ⟨⟨jb, by dsimp only; rw [upd_ne _ _ _ _ hid]; exact hjb, hst⟩, hpend⟩
      · simp only [step, hj2]; rw [if_neg hcond]; exact ⟨⟨jb, hjb, hst⟩, hpn⟩
  | fireTimeout id2 =>
    by_cases ht : s.timers id2 = true
    · simp only [step, if_pos ht]
      refine ⟨⟨jb, hjb, hst⟩, ?_⟩
      dsimp only
      by_cases hid : id = id2
      · subst hid; rw [upd_self]
      · rw [upd_ne _ _ _ _ hid]; exact hpn
    · simp only [step]; rw [if_neg ht]; exact ⟨⟨jb, hjb, hst⟩, hpn⟩
  | poll id2 =>
    cases hp2 : s.pending id2 with
    | none => simp only [step, hp2]; exact ⟨⟨jb, hjb, hst⟩, hpn⟩
    | some g =>
      have hid : ¬ id = id2 := by
        intro e; subst e; rw [hpn] at hp2; cases hp2
      cases g with
      | done lyr =>
        simp only [step, hp2]
        exact ⟨⟨jb, hjb, hst⟩, by dsimp only; rw [upd_ne _ _ _ _ hid]; exact hpn⟩
      | waiting => simp only [step, hp2]; exact ⟨⟨jb, hjb, hst⟩, hpn⟩
      | inProgress d t => simp only [step, hp2]; exact ⟨⟨jb, hjb, hst⟩, hpn⟩
      | error => simp only [step, hp2]; exact ⟨⟨jb, hjb, hst⟩, hpn⟩
      | cancelled => simp only [step, hp2]; exact ⟨⟨jb, hjb, hst⟩, hpn⟩

theorem deadPending_run (id : String) (s : SysState) (acts : List Act)
    (h : DeadPending id s) : DeadPending id (run s acts) := by
  induction acts generalizing s with
  | nil => exact h
  | cons a rest ih => exact ih (step s a) (deadPending_step id s a h)

/-- **C4.** The first poll that returns a `Done` snapshot deletes the job
and its timer at once, and every subsequent poll for the same generation
id returns not-found. -/
theorem c4_done_delivered_once (db : List (String × String)) (ldb : List (String × Line))
    (acts : List Act) (id : String) (lyr : List (Option Lyric))
    (hdone : pollResult (run (initS db ldb) acts) id = some (Snap.done lyr)) :
    (step (run (initS db ldb) acts) (Act.poll id)).pending id = none ∧
    (step (run (initS db ldb) acts) (Act.poll id)).timers id = false ∧
    ∀ acts2, pollResult (run (step (run (initS db ldb) acts) (Act.poll id)) acts2) id = none := by
  have hI := invs_run (initS db ldb) acts (invs_init db ldb)
  set s := run (initS db ldb) acts with hs
  have hp : s.pending id = some (Generation.done lyr) := by
    unfold pollResult at hdone
    cases hpg : s.pending id with
    | none => rw [hpg] at hdone; cases hdone
    | some g =>
      cases g <;> rw [hpg] at hdone <;> simp only [] at hdone
      · cases hdone
      · cases hdone
      · cases hdone
      · cases hdone
      · cases hdone; rfl
  obtain ⟨jb, hjb, hstarted, hended⟩ := hI.doneEnded id lyr hp
  have h1 : (step s (Act.poll id)).pending id = none := by
    simp only [step, hp]
    rw [upd_self]
  have h2 : (step s (Act.poll id)).timers id = false := by
    simp only [step, hp]
    rw [upd_self]
  refine ⟨h1, h2, ?_⟩
  intro acts2
  have hdead : DeadPending id (step s (Act.poll id)) := by
    refine ⟨⟨jb, ?_, hstarted⟩, h1⟩
    simp only [step, hp]
    exact hjb
  have := (deadPending_run id _ acts2 hdead).2
  unfold pollResult
  rw [this]

theorem c4_done_delivered_once_witness :
    (pollResult (run (initS [("i1", "a")] [])
        [Act.generate "g1" [⟨0, "a"⟩], Act.bodyEnd "g1" [some ⟨"u", 0, "a"⟩]]) "g1" =
      some (Snap.done [some ⟨"u", 0, "a"⟩])) ∧
    (step (run (initS [("i1", "a")] [])
        [Act.generate "g1" [⟨0, "a"⟩], Act.bodyEnd "g1" [some ⟨"u", 0, "a"⟩]])
        (Act.poll "g1")).pending "g1" = none ∧
    pollResult (run (step (run (initS [("i1", "a")] [])
        [Act.generate "g1" [⟨0, "a"⟩], Act.bodyEnd "g1" [some ⟨"u", 0, "a"⟩]])
        (Act.poll "g1")) [Act.poll "g1"]) "g1" = none := by
  have h := c4_done_delivered_once [("i1", "a")] [] [Act.generate "g1" [⟨0, "a"⟩],
    Act.bodyEnd "g1" [some ⟨"u", 0, "a"⟩]] "g1" [some ⟨"u", 0, "a"⟩] (by decide)
  exact ⟨by decide, h.1, h.2.2 [Act.poll "g1"]⟩

/-- **C8 (amended).**  When a job's inactivity timer fires, the handler
unconditionally deletes the timer, the registry entry and any waiting-queue
entry, so the immediately following poll returns not-found; and if the
job's body had already started, every later poll also returns not-found.
(A job deleted while still queued is re-registered `InProgress` when the
serialized chain reaches its callback — see the counterexample.) -/
theorem c8_timeout_reclaim :
    (∀ (s : SysState) (id : String), s.timers id = true →
      (step s (Act.fireTimeout id)).pending id = none ∧
      ¬ id ∈ (step s (Act.fireTimeout id)).waiting ∧
      (step s (Act.fireTimeout id)).timers id = false ∧
      pollResult (step s (Act.fireTimeout id)) id = none) ∧
    (∀ (s : SysState) (id : String) (jb : Job) (acts2 : List Act),
      s.timers id = true → s.jobs id = some jb → jb.started = true →
      pollResult (run (step s (Act.fireTimeout id)) acts2) id = none) := by
  constructor
  · intro s id ht
    have h1 : (step s (Act.fireTimeout id)).pending id = none := by
      simp only [step, if_pos ht]
      rw [upd_self]
    refine ⟨h1, ?_, ?_, ?_⟩
    · simp only [step, if_pos ht]
      intro hmem
      exact (mem_filter_ne.mp hmem).2 rfl
    · simp only [step, if_pos ht]
      rw [upd_self]
    · unfold pollResult
      rw [h1]
  · intro s id jb acts2 ht hjb hst
    have h1 : (step s (Act.fireTimeout id)).pending id = none := by
      simp only [step, if_pos ht]
      rw [upd_self]
    have hjb2 : (step s (Act.fireTimeout id)).jobs id = some jb := by
      simp only [step, if_pos ht]
      exact hjb
    have hdead : DeadPending id (step s (Act.fireTimeout id)) := ⟨⟨jb, hjb2, hst⟩, h1⟩
    have := (deadPending_run id _ acts2 hdead).2
    unfold pollResult
    rw [this]

theorem c8_timeout_reclaim_witness :
    ((run (initS [] []) [Act.generate "g0" [⟨0, "a"⟩], Act.startHead]).timers "g0" = true) ∧
    ((run (initS [] []) [Act.generate "g0" [⟨0, "a"⟩], Act.startHead]).jobs "g0" =
      some ⟨[⟨0, "a"⟩], true, true, false⟩) ∧
    (step (run (initS [] []) [Act.generate "g0" [⟨0, "a"⟩], Act.startHead])
        (Act.fireTimeout "g0")).pending "g0" = none ∧
    pollResult (run (step (run (initS [] []) [Act.generate "g0" [⟨0, "a"⟩], Act.startHead])
        (Act.fireTimeout "g0")) [Act.poll "g0", Act.startHead]) "g0" = none := by
  have ha := c8_timeout_reclaim.1 (run (initS [] [])
    [Act.generate "g0" [⟨0, "a"⟩], Act.startHead]) "g0" rfl
  have hb := c8_timeout_reclaim.2 (run (initS [] [])
    [Act.generate "g0" [⟨0, "a"⟩], Act.startHead]) "g0" ⟨[⟨0, "a"⟩], true, true, false⟩
    [Act.poll "g0", Act.startHead] rfl rfl rfl
  exact ⟨rfl, rfl, ha.1, hb⟩

/-- **C8 (counterexample).**  A job that timed out while still queued is
*not* permanently unreachable: when the serialized chain later reaches its
callback, `setInProgress()` re-registers it, and a poll then returns an
`InProgress` snapshot instead of not-found. -/
theorem c8_counterexample :
    ((run (initS [] []) [Act.generate "g0" [⟨0, "a"⟩], Act.startHead,
        Act.generate "g1" [⟨0, "b"⟩]]).timers "g1" = true) ∧
    (pollResult (run (initS [] []) [Act.generate "g0" [⟨0, "a"⟩], Act.startHead,
        Act.generate "g1" [⟨0, "b"⟩], Act.fireTimeout "g1"]) "g1" = none) ∧
    (pollResult (run (initS [] []) [Act.generate "g0" [⟨0, "a"⟩], Act.startHead,
        Act.generate "g1" [⟨0, "b"⟩], Act.fireTimeout "g1", Act.bodyEnd "g0" [],
        Act.startHead]) "g1" = some (Snap.inProgress 0 1)) := by
  refine ⟨rfl, rfl, by decide⟩

/-! ## Line-resolution model

State of one job's `callback` body, from `setInProgress()` onwards.  The
`lines.map(async ...)` callbacks all run synchronously up to their first
`await` (the `generations`-table select), so every task starts suspended
at that select.  One transition is the synchronous code run after one
suspension point resolves. -/

/-- State of one in-flight external generation request: the promise stored
in `pendingImageUrisByWords` (which is never removed from the map). -/
inductive CallSt where
  | pending
  | resolved (images : List String)
  | failed
deriving DecidableEq, Repr

/-- Program counter of one line's async callback. -/
inductive LPC where
  /-- awaiting `SELECT id FROM generations WHERE words_hash = ?` -/
  | awaitSelect
  /-- awaiting the shared pending promise of call `c` -/
  | awaitShared (c : Nat)
  /-- awaiting `fs.promises.readFile` of a cached record -/
  | awaitFile (recId : String)
  /-- awaiting the throttle `setTimeout` (after `uncachedIndex++`) -/
  | awaitDelay
  /-- awaiting the `axios.post` of call `c` -/
  | awaitPost (c : Nat)
  /-- the callback returned (`none` = returned `undefined` after a skip) -/
  | finished (r : Option Lyric)
deriving DecidableEq, Repr

structure LineTask where
  line : Line
  pc : LPC
deriving DecidableEq, Repr

/-- One spawned `images.forEach(async (image) => ...)` body: write the blob,
then insert the dedup row.  `stage` 0 = before `writeFile`, 1 = before the
`INSERT`, 2 = finished. -/
structure InsRec where
  imageId : String
  image : String
  wordsHash : String
  stage : Nat
deriving DecidableEq, Repr

/-- The external image generator: given a prompt, the images it returns. -/
structure JParams where
  genImages : String → List String

/-- State of one running job body plus the shared persistent stores.

* `gen`       : this job's `_pendingGenerations` entry (`none` = deleted);
* `tasks`     : one per line, in original order;
* `uncachedIndex`, `delays` : the throttle counter and the log of
  `(words, delayMs)` applied at each uncached-branch entry;
* `calls`     : every external generation request issued by this job, in
  issue order (`calls.length` indexes new calls);
* `sharedMap` : `pendingImageUrisByWords`, mapping words to the latest
  registered call;
* `db`, `files` : the `generations` table and the blob store;
* `inserts`   : spawned cache-insert bodies;
* `nextId`    : fresh-identifier counter standing in for `v4()`. -/
structure JobState where
  gen : Option Generation
  tasks : List LineTask
  uncachedIndex : Int
  calls : List (String × CallSt)
  sharedMap : String → Option Nat
  db : List (String × String)
  files : List (String × String)
  inserts : List InsRec
  delays : List (String × Nat)
  nextId : Nat

def statusInProgress (g : Option Generation) : Bool :=
  match g with
  | some (Generation.inProgress _ _) => true
  | _ => false

def isFinished (pc : LPC) : Bool :=
  match pc with
  | LPC.finished _ => true
  | _ => false

def taskResult (pc : LPC) : Option Lyric :=
  match pc with
  | LPC.finished r => r
  | _ => none

/-- The `catch` block: a skip when the job is no longer `inProgress`,
otherwise status `error`; either way the callback then returns (with the
partial `imageUri` in the error case). -/
def catchFail (js : JobState) (i : Nat) (t : LineTask) : JobState :=
  if statusInProgress js.gen then
    { js with
      gen := some Generation.error
      tasks := js.tasks.set i
        { t with pc := LPC.finished (some ⟨dataUriPrefix, t.line.startTimeMs, t.line.words⟩) } }
  else
    { js with tasks := js.tasks.set i { t with pc := LPC.finished none } }

/-- The common tail after an `imageUri` was computed: re-check the status,
increment `done` while still `inProgress`, and return the line result. -/
def succeed (js : JobState) (i : Nat) (t : LineTask) (uri : String) : JobState :=
  match js.gen with
  | some (Generation.inProgress d tot) =>
      { js with
        gen := some (Generation.inProgress (d + 1) tot)
        tasks := js.tasks.set i
          { t with pc := LPC.finished (some ⟨uri, t.line.startTimeMs, t.line.words⟩) } }
  | _ => { js with tasks := js.tasks.set i { t with pc := LPC.finished none } }

/-- The `images.forEach(async (image) => ...)` spawn: one insert body per
returned image, each with a freshly minted identifier. -/
def spawnIns (nid : Nat) (hash : String) : List String → List InsRec
  | [] => []
  | img :: rest => ⟨"img" ++ toString nid, img, hash, 0⟩ :: spawnIns (nid + 1) hash rest

/-- Scheduler events of the body model; `i` indexes a line task, `j` an
insert body, `k` supplies the random draw, `ok` the I/O outcome. -/
inductive JAct where
  | resumeSelect (i k : Nat) (ok : Bool)
  | resumeDelay (i : Nat)
  | resumePost (i k : Nat) (ok : Bool)
  | resumeShared (i k : Nat)
  | resumeFile (i : Nat) (ok : Bool)
  | runWrite (j : Nat)
  | runIns (j : Nat)
  | finishAll
  | timeoutDelete

def stepJ (P : JParams) (js : JobState) (a : JAct) : JobState :=
  match a with
  | JAct.resumeSelect i k ok =>
    match js.tasks.get? i with
    | none => js
    | some t =>
      if t.pc = LPC.awaitSelect then
        if ok then
          let wordsHash := md5 t.line.words
          let existing := js.db.filter (fun r => r.2 = wordsHash)
          match js.sharedMap t.line.words with
          | some c => { js with tasks := js.tasks.set i { t with pc := LPC.awaitShared c } }
          | none =>
            if existing.isEmpty then
              let ui := js.uncachedIndex + 1
              { js with
                uncachedIndex := ui
                delays := js.delays ++ [(t.line.words, ui.toNat / 3 * 10000)]
                tasks := js.tasks.set i { t with pc := LPC.awaitDelay } }
            else
              match existing.get? (k % existing.length) with
              | some r => { js with tasks := js.tasks.set i { t with pc := LPC.awaitFile r.1 } }
              | none => js
        else catchFail js i t
      else js
  | JAct.resumeDelay i =>
    match js.tasks.get? i with
    | none => js
    | some t =>
      if t.pc = LPC.awaitDelay then
        if statusInProgress js.gen then
          { js with
            calls := js.calls ++ [(t.line.words, CallSt.pending)]
            sharedMap := upd js.sharedMap t.line.words (some js.calls.length)
            tasks := js.tasks.set i { t with pc := LPC.awaitPost js.calls.length } }
        else { js with tasks := js.tasks.set i { t with pc := LPC.finished none } }
      else js
  | JAct.resumePost i k ok =>
    match js.tasks.get? i with
    | none => js
    | some t =>
      match t.pc with
      | LPC.awaitPost c =>
        match js.calls.get? c with
        | some (_, CallSt.pending) =>
          if ok then
            let images := P.genImages t.line.words
            let js1 :=
              { js with
                calls := js.calls.set c (t.line.words, CallSt.resolved images)
                inserts := js.inserts ++ spawnIns js.nextId (md5 t.line.words) images
                nextId := js.nextId + images.length }
            succeed js1 i t (dataUriPrefix ++ getRandomElement images k)
          else
            catchFail { js with calls := js.calls.set c (t.line.words, CallSt.failed) } i t
        | _ => js
      | _ => js
  | JAct.resumeShared i k =>
    match js.tasks.get? i with
    | none => js
    | some t =>
      match t.pc with
      | LPC.awaitShared c =>
        match js.calls.get? c with
        | some (_, CallSt.resolved images) =>
            succeed js i t (dataUriPrefix ++ getRandomElement images k)
        | some (_, CallSt.failed) => catchFail js i t
        | _ => js
      | _ => js
  | JAct.resumeFile i ok =>
    match js.tasks.get? i with
    | none => js
    | some t =>
      match t.pc with
      | LPC.awaitFile rid =>
        if ok then
          match js.files.lookup rid with
          | some content => succeed js i t (dataUriPrefix ++ content)
          | none => catchFail js i t
        else catchFail js i t
      | _ => js
  | JAct.runWrite j =>
    match js.inserts.get? j with
    | none => js
    | some r =>
      if r.stage = 0 then
        { js with
          files := js.files ++ [(r.imageId, r.image)]
          inserts := js.inserts.set j { r with stage := 1 } }
      else js
  | JAct.runIns j =>
    match js.inserts.get? j with
    | none => js
    | some r =>
      if r.stage = 1 then
        { js with
          db := js.db ++ [(r.imageId, r.wordsHash)]
          inserts := js.inserts.set j { r with stage := 2 } }
      else js
  | JAct.finishAll =>
    if js.tasks.all (fun t => isFinished t.pc) then
      match js.gen with
      | some (Generation.inProgress _ _) =>
          { js with gen := some (Generation.done (js.tasks.map (fun t => taskResult t.pc))) }
      | _ => js
    else js
  | JAct.timeoutDelete => { js with gen := none }

/-- Body state right after `setInProgress()`: every line suspended at its
cache select. -/
def initJ (lines : List Line) (db0 files0 : List (String × String)) : JobState :=
  { gen := some (Generation.inProgress 0 lines.length)
    tasks := lines.map (fun l => ⟨l, LPC.awaitSelect⟩)
    uncachedIndex := -1
    calls := []
    sharedMap := fun _ => none
    db := db0
    files := files0
    inserts := []
    delays := []
    nextId := 0 }

def runJ (P : JParams) (js : JobState) (acts : List JAct) : JobState :=
  acts.foldl (stepJ P) js

/-- Number of external generator invocations issued for the given words. -/
def calledCount (js : JobState) (w : String) : Nat :=
  (js.calls.filter (fun c => c.1 = w)).length

/-- Tasks of the given words sitting between `uncachedIndex++` and the
`axios.post` (throttle delay pending, request not yet registered). -/
def atDelayCount (js : JobState) (w : String) : Nat :=
  (js.tasks.filter (fun t => t.line.words = w ∧ t.pc = LPC.awaitDelay)).length

def unfinCount (js : JobState) : Nat :=
  (js.tasks.filter (fun t => ¬ isFinished t.pc = true)).length

theorem catchFail_fields (js : JobState) (i : Nat) (t : LineTask) :
    (catchFail js i t).delays = js.delays ∧
    (catchFail js i t).uncachedIndex = js.uncachedIndex ∧
    (catchFail js i t).calls = js.calls ∧
    (catchFail js i t).sharedMap = js.sharedMap ∧
    (catchFail js i t).db = js.db ∧
    (catchFail js i t).files = js.files ∧
    (catchFail js i t).inserts = js.inserts ∧
    (∃ r, (catchFail js i t).tasks = js.tasks.set i { t with pc := LPC.finished r }) ∧
    (statusInProgress js.gen = true → (catchFail js i t).gen = some Generation.error) ∧
    (statusInProgress js.gen = false → (catchFail js i t).gen = js.gen) := by
  unfold catchFail
  by_cases h : statusInProgress js.gen = true
  · rw [if_pos h]
    exact ⟨rfl, rfl, rfl, rfl, rfl, rfl, rfl, ⟨_, rfl⟩, fun _ => rfl,
      fun hf => absurd h (by rw [hf]; exact Bool.false_ne_true)⟩
  · rw [if_neg h]
    exact ⟨rfl, rfl, rfl, rfl, rfl, rfl, rfl, ⟨_, rfl⟩, fun ht => absurd ht h,
      fun _ => rfl⟩

theorem succeed_fields (js : JobState) (i : Nat) (t : LineTask) (uri : String) :
    (succeed js i t uri).delays = js.delays ∧
    (succeed js i t uri).uncachedIndex = js.uncachedIndex ∧
    (succeed js i t uri).calls = js.calls ∧
    (succeed js i t uri).sharedMap = js.sharedMap ∧
    (succeed js i t uri).db = js.db ∧
    (succeed js i t uri).files = js.files ∧
    (succeed js i t uri).inserts = js.inserts ∧
    (∃ r, (succeed js i t uri).tasks = js.tasks.set i { t with pc := LPC.finished r }) ∧
    (∀ d tot, js.gen = some (Generation.inProgress d tot) →
      (succeed js i t uri).gen = some (Generation.inProgress (d + 1) tot)) ∧
    (statusInProgress js.gen = false → (succeed js i t uri).gen = js.gen) := by
  unfold succeed
  cases hg : js.gen with
  | none =>
    refine ⟨rfl, rfl, rfl, rfl, rfl, rfl, rfl, ⟨_, rfl⟩, ?_, fun _ => rfl⟩
    intro d tot h
    cases h
  | some g =>
    cases g with
    | inProgress d tot =>
      refine ⟨rfl, rfl, rfl, rfl, rfl, rfl, rfl, ⟨_, rfl⟩, ?_, ?_⟩
      · intro d2 t2 h
        cases h
        rfl
      · intro h
        rw [statusInProgress] at h
        cases h
    | waiting =>
      refine ⟨rfl, rfl, rfl, rfl, rfl, rfl, rfl, ⟨_, rfl⟩, ?_, fun _ => rfl⟩
      intro d tot h
      cases h
    | error =>
      refine ⟨rfl, rfl, rfl, rfl, rfl, rfl, rfl, ⟨_, rfl⟩, ?_, fun _ => rfl⟩
      intro d tot h
      cases h
    | cancelled =>
      refine ⟨rfl, rfl, rfl, rfl, rfl, rfl, rfl, ⟨_, rfl⟩, ?_, fun _ => rfl⟩
      intro d tot h
      cases h
    | done lyr =>
      refine ⟨rfl, rfl, rfl, rfl, rfl, rfl, rfl, ⟨_, rfl⟩, ?_, fun _ => rfl⟩
      intro d tot h
      cases h

theorem stepJ_throttle (P : JParams) (js : JobState) (a : JAct) :
    ((stepJ P js a).delays = js.delays ∧ (stepJ P js a).uncachedIndex = js.uncachedIndex) ∨
    (∃ i k t, a = JAct.resumeSelect i k true ∧ js.tasks.get? i = some t ∧
      t.pc = LPC.awaitSelect ∧ js.sharedMap t.line.words = none ∧
      (js.db.filter (fun r => r.2 = md5 t.line.words)).isEmpty = true ∧
      (stepJ P js a).delays =
        js.delays ++ [(t.line.words, (js.uncachedIndex + 1).toNat / 3 * 10000)] ∧
      (stepJ P js a).uncachedIndex = js.uncachedIndex + 1) := by
  cases a with
  | resumeSelect i k ok =>
    simp only [stepJ]
    split
    · exact Or.inl ⟨rfl, rfl⟩
    next t hts =>
      split
      next hpc =>
        split
        next hok =>
          split
          next c hsm => exact Or.inl ⟨rfl, rfl⟩
          next hsm =>
            split
            next hemp =>
              refine Or.inr ⟨i, k, t, ?_, hts, hpc, hsm, hemp, rfl, rfl⟩
              rw [hok]
            next hemp =>
              split
              · exact Or.inl ⟨rfl, rfl⟩
              · exact Or.inl ⟨rfl, rfl⟩
        next hok => exact Or.inl ⟨(catchFail_fields js i t).1, (catchFail_fields js i t).2.1⟩
      next hpc => exact Or.inl ⟨rfl, rfl⟩
  | resumeDelay i =>
    simp only [stepJ]
    split
    · exact Or.inl ⟨rfl, rfl⟩
    · split
      · split
        · exact Or.inl ⟨rfl, rfl⟩
        · exact Or.inl ⟨rfl, rfl⟩
      · exact Or.inl ⟨rfl, rfl⟩
  | resumePost i k ok =>
    simp only [stepJ]
    split
    · exact Or.inl ⟨rfl, rfl⟩
    next t _ =>
      split
      next c _ =>
        split
        next w st _ =>
          split
          · exact Or.inl ⟨(succeed_fields _ i t _).1, (succeed_fields _ i t _).2.1⟩
          · exact Or.inl ⟨(catchFail_fields _ i t).1, (catchFail_fields _ i t).2.1⟩
        · exact Or.inl ⟨rfl, rfl⟩
      · exact Or.inl ⟨rfl, rfl⟩
  | resumeShared i k =>
    simp only [stepJ]
    split
    · exact Or.inl ⟨rfl, rfl⟩
    next t _ =>
      split
      next c _ =>
        split
        · exact Or.inl ⟨(succeed_fields _ i t _).1, (succeed_fields _ i t _).2.1⟩
        · exact Or.inl ⟨(catchFail_fields _ i t).1, (catchFail_fields _ i t).2.1⟩
        · exact Or.inl ⟨rfl, rfl⟩
      · exact Or.inl ⟨rfl, rfl⟩
  | resumeFile i ok =>
    simp only [stepJ]
    split
    · exact Or.inl ⟨rfl, rfl⟩
    next t _ =>
      split
      next rid _ =>
        split
        · split
          · exact Or.inl ⟨(succeed_fields _ i t _).1, (succeed_fields _ i t _).2.1⟩
          · exact Or.inl ⟨(catchFail_fields _ i t).1, (catchFail_fields _ i t).2.1⟩
        · exact Or.inl ⟨(catchFail_fields _ i t).1, (catchFail_fields _ i t).2.1⟩
      · exact Or.inl ⟨rfl, rfl⟩
  | runWrite j =>
    simp only [stepJ]
    split
    · exact Or.inl ⟨rfl, rfl⟩
    · split
      · exact Or.inl ⟨rfl, rfl⟩
      · exact Or.inl ⟨rfl, rfl⟩
  | runIns j =>
    simp only [stepJ]
    split
    · exact Or.inl ⟨rfl, rfl⟩
    · split
      · exact Or.inl ⟨rfl, rfl⟩
      · exact Or.inl ⟨rfl, rfl⟩
  | finishAll =>
    simp only [stepJ]
    split
    · split
      · exact Or.inl ⟨rfl, rfl⟩
      · exact Or.inl ⟨rfl, rfl⟩
    · exact Or.inl ⟨rfl, rfl⟩
  | timeoutDelete => exact Or.inl ⟨rfl, rfl⟩

/-- Throttle bookkeeping: `uncachedIndex` trails the delay log by one, and
the `k`-th logged delay is `k / 3 * 10000`. -/
def ThrottleInv (js : JobState) : Prop :=
  js.uncachedIndex = (js.delays.length : Int) - 1 ∧
  ∀ k e, js.delays.get? k = some e → e.2 = k / 3 * 10000

theorem throttleInv_step (P : JParams) (js : JobState) (a : JAct)
    (h : ThrottleInv js) : ThrottleInv (stepJ P js a) := by
  obtain ⟨hui, hfor⟩ := h
  rcases stepJ_throttle P js a with ⟨hd, hu⟩ | ⟨i2, k2, t2, haeq, ht2, hpc2, hsm2, hemp2, hd, hu⟩
  · exact ⟨by rw [hd, hu]; exact hui, by rw [hd]; exact hfor⟩
  · have htn : (js.uncachedIndex + 1).toNat = js.delays.length := by omega
    constructor
    · rw [hd, hu]
      simp only [List.length_append, List.length_cons, List.length_nil]
      omega
    · intro k e hk
      rw [hd] at hk
      by_cases hlt : k < js.delays.length
      · rw [List.get?_append hlt] at hk
        exact hfor k e hk
      · have hge : js.delays.length ≤ k := Nat.le_of_not_lt hlt
        rw [List.get?_append_right hge] at hk
        cases hkk : k - js.delays.length with
        | zero =>
          rw [hkk] at hk
          simp only [List.get?] at hk
          cases hk
          have hkeq : k = js.delays.length := by omega
          rw [hkeq, htn]
        | succ m =>
          rw [hkk] at hk
          simp only [List.get?] at hk
          cases hk

theorem throttleInv_run (P : JParams) (js : JobState) (acts : List JAct)
    (h : ThrottleInv js) : ThrottleInv (runJ P js acts) := by
  induction acts generalizing js with
  | nil => exact h
  | cons a rest ih => exact ih (stepJ P js a) (throttleInv_step P js a h)

/-- **C3 (amended).**  The `n`-th entry of the uncached branch within one
job suspends for `floor(n / 3) * 10000` ms before its generation request,
where `n` counts prior uncached-branch entries (one per line that found
neither a cache record nor a registered in-flight request at its check —
the distinct-phrase index unless a duplicate line races past the
registration); lines resolved from the cache or from an already-registered
in-flight request log no delay. -/
theorem c3_throttle_delay :
    (∀ (P : JParams) (lines : List Line) (db0 files0 : List (String × String))
        (acts : List JAct) (k : Nat) (e : String × Nat),
      (runJ P (initJ lines db0 files0) acts).delays.get? k = some e →
      e.2 = k / 3 * 10000) ∧
    (∀ (P : JParams) (js : JobState) (i k : Nat) (t : LineTask),
      js.tasks.get? i = some t → t.pc = LPC.awaitSelect →
      ((∃ c, js.sharedMap t.line.words = some c) ∨
        (js.db.filter (fun r => r.2 = md5 t.line.words)).isEmpty = false) →
      (stepJ P js (JAct.resumeSelect i k true)).delays = js.delays) := by
  constructor
  · intro P lines db0 files0 acts k e hk
    have hinit : ThrottleInv (initJ lines db0 files0) := by
      constructor
      · simp [initJ]
      · intro k e hk
        simp [initJ] at hk
    exact (throttleInv_run P _ acts hinit).2 k e hk
  · intro P js i k t ht hpc hcase
    rcases stepJ_throttle P js (JAct.resumeSelect i k true) with ⟨hd, _⟩ |
      ⟨i2, k2, t2, haeq, ht2, _, hsm2, hemp2, _, _⟩
    · exact hd
    · exfalso
      cases haeq
      rw [ht] at ht2
      cases ht2
      rcases hcase with ⟨c, hc⟩ | hdb
      · rw [hc] at hsm2
        cases hsm2
      · rw [hdb] at hemp2
        cases hemp2

theorem c3_throttle_delay_witness :
    ((runJ ⟨fun _ => ["x"]⟩ (initJ [⟨0, "a"⟩, ⟨1, "b"⟩, ⟨2, "c"⟩, ⟨3, "d"⟩] [] [])
        [JAct.resumeSelect 0 0 true, JAct.resumeSelect 1 0 true, JAct.resumeSelect 2 0 true,
          JAct.resumeSelect 3 0 true]).delays.get? 3 = some ("d", 10000)) ∧
    (10000 : Nat) = 3 / 3 * 10000 ∧
    ((initJ [⟨0, "a"⟩] [("i1", "a")] []).tasks.get? 0 = some ⟨⟨0, "a"⟩, LPC.awaitSelect⟩) ∧
    (stepJ ⟨fun _ => ["x"]⟩ (initJ [⟨0, "a"⟩] [("i1", "a")] [])
        (JAct.resumeSelect 0 0 true)).delays = (initJ [⟨0, "a"⟩] [("i1", "a")] []).delays :=
  ⟨by decide,
    c3_throttle_delay.1 ⟨fun _ => ["x"]⟩ [⟨0, "a"⟩, ⟨1, "b"⟩, ⟨2, "c"⟩, ⟨3, "d"⟩] [] []
      [JAct.resumeSelect 0 0 true, JAct.resumeSelect 1 0 true, JAct.resumeSelect 2 0 true,
        JAct.resumeSelect 3 0 true] 3 ("d", 10000) (by decide),
    rfl,
    c3_throttle_delay.2 ⟨fun _ => ["x"]⟩ (initJ [⟨0, "a"⟩] [("i1", "a")] []) 0 0
      ⟨⟨0, "a"⟩, LPC.awaitSelect⟩ rfl rfl (Or.inr (by decide))⟩

/-- **C3 (counterexample).**  With lines `a b c a` all uncached, the two
`a` lines race past the pending-map check: the phrase `a` is "discovered"
twice and its second generation request is delayed 10000 ms although the
distinct-phrase discovery index of `a` is 0 — no single index `n` accounts
for both logged delays of the phrase. -/
theorem c3_counterexample :
    (((runJ ⟨fun _ => ["x"]⟩ (initJ [⟨0, "a"⟩, ⟨1, "b"⟩, ⟨2, "c"⟩, ⟨3, "a"⟩] [] [])
        [JAct.resumeSelect 0 0 true, JAct.resumeSelect 1 0 true, JAct.resumeSelect 2 0 true,
          JAct.resumeSelect 3 0 true]).delays.filter (fun d => d.1 = "a")).map Prod.snd =
      [0, 10000]) ∧
    ∀ n : Nat, ¬ ((0 : Nat) = n / 3 * 10000 ∧ (10000 : Nat) = n / 3 * 10000) := by
  refine ⟨by decide, ?_⟩
  intro n hn
  omega

theorem length_filter_set {α : Type} (p : α → Bool) (l : List α) (i : Nat) (x y : α)
    (hx : l.get? i = some x) (hpq : p y = p x) :
    ((l.set i y).filter p).length = (l.filter p).length := by
  induction l generalizing i with
  | nil => cases hx
  | cons a tl ih =>
    cases i with
    | zero =>
      have hax : a = x := by
        simp only [List.get?] at hx
        exact Option.some.inj hx
      subst hax
      simp only [List.set, List.filter_cons, hpq]
      cases hpa : p a <;> simp [hpa]
    | succ n =>
      have hx2 : tl.get? n = some x := by simpa [List.get?] using hx
      simp only [List.set, List.filter_cons]
      cases hpa : p a <;> simp [hpa, ih n hx2]

theorem length_filter_set_lower {α : Type} (p : α → Bool) (l : List α) (i : Nat) (x y : α)
    (hx : l.get? i = some x) (hpx : p x = true) (hpy : p y = false) :
    ((l.set i y).filter p).length + 1 = (l.filter p).length := by
  induction l generalizing i with
  | nil => cases hx
  | cons a tl ih =>
    cases i with
    | zero =>
      have hax : a = x := by
        simp only [List.get?] at hx
        exact Option.some.inj hx
      subst hax
      simp [List.set, List.filter_cons, hpx, hpy]
    | succ n =>
      have hx2 : tl.get? n = some x := by simpa [List.get?] using hx
      simp only [List.set, List.filter_cons]
      cases hpa : p a <;> simp [hpa, ih n hx2]

theorem stepJ_tasks_len (P : JParams) (js : JobState) (a : JAct) :
    (stepJ P js a).tasks.length = js.tasks.length := by
  have hcf : ∀ (js2 : JobState) (i : Nat) (t : LineTask),
      (catchFail js2 i t).tasks.length = js2.tasks.length := by
    intro js2 i t
    obtain ⟨r, hr⟩ := (catchFail_fields js2 i t).2.2.2.2.2.2.2.1
    rw [hr, List.length_set]
  have hsc : ∀ (js2 : JobState) (i : Nat) (t : LineTask) (uri : String),
      (succeed js2 i t uri).tasks.length = js2.tasks.length := by
    intro js2 i t uri
    obtain ⟨r, hr⟩ := (succeed_fields js2 i t uri).2.2.2.2.2.2.2.1
    rw [hr, List.length_set]
  cases a with
  | resumeSelect i k ok =>
    simp only [stepJ]
    split
    · rfl
    next t hts =>
      split
      · split
        · split
          · exact List.length_set ..
          · split
            · exact List.length_set ..
            · split
              · exact List.length_set ..
              · rfl
        · exact hcf js i t
      · rfl
  | resumeDelay i =>
    simp only [stepJ]
    split
    · rfl
    · split
      · split
        · exact List.length_set ..
        · exact List.length_set ..
      · rfl
  | resumePost i k ok =>
    simp only [stepJ]
    split
    · rfl
    next t _ =>
      split
      · split
        · split
          · exact hsc _ i t _
          · exact hcf _ i t
        · rfl
      · rfl
  | resumeShared i k =>
    simp only [stepJ]
    split
    · rfl
    next t _ =>
      split
      · split
        · exact hsc _ i t _
        · exact hcf _ i t
        · rfl
      · rfl
  | resumeFile i ok =>
    simp only [stepJ]
    split
    · rfl
    next t _ =>
      split
      · split
        · split
          · exact hsc _ i t _
          · exact hcf _ i t
        · exact hcf _ i t
      · rfl
  | runWrite j =>
    simp only [stepJ]
    split
    · rfl
    · split <;> rfl
  | runIns j =>
    simp only [stepJ]
    split
    · rfl
    · split <;> rfl
  | finishAll =>
    simp only [stepJ]
    split
    · split <;> rfl
    · rfl
  | timeoutDelete => rfl

theorem stepJ_gen (P : JParams) (js : JobState) (a : JAct) :
    (stepJ P js a).gen = js.gen ∨
    (stepJ P js a).gen = some Generation.error ∨
    (stepJ P js a).gen = none ∨
    (∃ d t, js.gen = some (Generation.inProgress d t) ∧
      ((stepJ P js a).gen = some (Generation.inProgress (d + 1) t) ∨
        ∃ lyr, (stepJ P js a).gen = some (Generation.done lyr))) := by
  have hcf : ∀ (js2 : JobState) (i : Nat) (t : LineTask),
      (catchFail js2 i t).gen = js2.gen ∨ (catchFail js2 i t).gen = some Generation.error := by
    intro js2 i t
    by_cases hst : statusInProgress js2.gen = true
    · exact Or.inr ((catchFail_fields js2 i t).2.2.2.2.2.2.2.2.1 hst)
    · exact Or.inl ((catchFail_fields js2 i t).2.2.2.2.2.2.2.2.2
        (Bool.eq_false_iff.mpr hst))
  have hsc : ∀ (js2 : JobState) (i : Nat) (t : LineTask) (uri : String),
      (succeed js2 i t uri).gen = js2.gen ∨
      ∃ d tot, js2.gen = some (Generation.inProgress d tot) ∧
        (succeed js2 i t uri).gen = some (Generation.inProgress (d + 1) tot) := by
    intro js2 i t uri
    cases hg : js2.gen with
    | none =>
      refine Or.inl ?_
      rw [(succeed_fields js2 i t uri).2.2.2.2.2.2.2.2.2 (by simp [statusInProgress, hg]), hg]
    | some g =>
      cases g with
      | inProgress d tot =>
        exact Or.inr ⟨d, tot, rfl, (succeed_fields js2 i t uri).2.2.2.2.2.2.2.2.1 d tot hg⟩
      | waiting =>
        refine Or.inl ?_
        rw [(succeed_fields js2 i t uri).2.2.2.2.2.2.2.2.2 (by simp [statusInProgress, hg]), hg]
      | error =>
        refine Or.inl ?_
        rw [(succeed_fields js2 i t uri).2.2.2.2.2.2.2.2.2 (by simp [statusInProgress, hg]), hg]
      | cancelled =>
        refine Or.inl ?_
        rw [(succeed_fields js2 i t uri).2.2.2.2.2.2.2.2.2 (by simp [statusInProgress, hg]), hg]
      | done lyr =>
        refine Or.inl ?_
        rw [(succeed_fields js2 i t uri).2.2.2.2.2.2.2.2.2 (by simp [statusInProgress, hg]), hg]
  have hscgen : ∀ (js2 : JobState) (i : Nat) (t : LineTask) (uri : String),
      js2.gen = js.gen →
      (succeed js2 i t uri).gen = js.gen ∨
      (succeed js2 i t uri).gen = some Generation.error ∨
      (succeed js2 i t uri).gen = none ∨
      (∃ d t2, js.gen = some (Generation.inProgress d t2) ∧
        ((succeed js2 i t uri).gen = some (Generation.inProgress (d + 1) t2) ∨
          ∃ lyr, (succeed js2 i t uri).gen = some (Generation.done lyr))) := by
    intro js2 i t uri heq
    rcases hsc js2 i t uri with hh | ⟨d, tot, hin, hout⟩
    · exact Or.inl (by rw [hh, heq])
    · exact Or.inr (Or.inr (Or.inr ⟨d, tot, by rw [← heq]; exact hin, Or.inl hout⟩))
  have hcfgen : ∀ (js2 : JobState) (i : Nat) (t : LineTask),
      js2.gen = js.gen →
      (catchFail js2 i t).gen = js.gen ∨
      (catchFail js2 i t).gen = some Generation.error ∨
      (catchFail js2 i t).gen = none ∨
      (∃ d t2, js.gen = some (Generation.inProgress d t2) ∧
        ((catchFail js2 i t).gen = some (Generation.inProgress (d + 1) t2) ∨
          ∃ lyr, (catchFail js2 i t).gen = some (Generation.done lyr))) := by
    intro js2 i t heq
    rcases hcf js2 i t with hh | hh
    · exact Or.inl (by rw [hh, heq])
    · exact Or.inr (Or.inl hh)
  cases a with
  | resumeSelect i k ok =>
    simp only [stepJ]
    split
    · exact Or.inl rfl
    next t hts =>
      split
      · split
        · split
          · exact Or.inl rfl
          · split
            · exact Or.inl rfl
            · split
              · exact Or.inl rfl
              · exact Or.inl rfl
        · exact hcfgen js i t rfl
      · exact Or.inl rfl
  | resumeDelay i =>
    simp only [stepJ]
    split
    · exact Or.inl rfl
    · split
      · split
        · exact Or.inl rfl
        · exact Or.inl rfl
      · exact Or.inl rfl
  | resumePost i k ok =>
    simp only [stepJ]
    split
    · exact Or.inl rfl
    next t _ =>
      split
      · split
        · split
          · exact hscgen _ i t _ rfl
          · exact hcfgen _ i t rfl
        · exact Or.inl rfl
      · exact Or.inl rfl
  | resumeShared i k =>
    simp only [stepJ]
    split
    · exact Or.inl rfl
    next t _ =>
      split
      · split
        · exact hscgen _ i t _ rfl
        · exact hcfgen _ i t rfl
        · exact Or.inl rfl
      · exact Or.inl rfl
  | resumeFile i ok =>
    simp only [stepJ]
    split
    · exact Or.inl rfl
    next t _ =>
      split
      · split
        · split
          · exact hscgen _ i t _ rfl
          · exact hcfgen _ i t rfl
        · exact hcfgen _ i t rfl
      · exact Or.inl rfl
  | runWrite j =>
    simp only [stepJ]
    split
    · exact Or.inl rfl
    · split
      · exact Or.inl rfl
      · exact Or.inl rfl
  | runIns j =>
    simp only [stepJ]
    split
    · exact Or.inl rfl
    · split
      · exact Or.inl rfl
      · exact Or.inl rfl
  | finishAll =>
    simp only [stepJ]
    split
    next hall =>
      split
      next d t hg => exact Or.inr (Or.inr (Or.inr ⟨d, t, hg, Or.inr ⟨_, rfl⟩⟩))
      next => exact Or.inl rfl
    next => exact Or.inl rfl
  | timeoutDelete => exact Or.inr (Or.inr (Or.inl rfl))

/-- Progress bookkeeping: while `inProgress`, `total` is the line count and
`done` plus the number of unfinished line callbacks never exceeds it. -/
def ProgressInv (js : JobState) : Prop :=
  ∀ d t, js.gen = some (Generation.inProgress d t) →
    t = js.tasks.length ∧ d + unfinCount js ≤ t

theorem catchFail_progress (js : JobState) (i : Nat) (t : LineTask) :
    ProgressInv (catchFail js i t) := by
  intro d t2 hg
  exfalso
  by_cases hst : statusInProgress js.gen = true
  · rw [(catchFail_fields js i t).2.2.2.2.2.2.2.2.1 hst] at hg
    cases hg
  · rw [(catchFail_fields js i t).2.2.2.2.2.2.2.2.2 (Bool.eq_false_iff.mpr hst)] at hg
    rw [hg] at hst
    exact hst rfl

theorem succeed_progress (js : JobState) (i : Nat) (t : LineTask) (uri : String)
    (ht : js.tasks.get? i = some t) (hnf : isFinished t.pc = false)
    (h : ProgressInv js) : ProgressInv (succeed js i t uri) := by
  intro d2 t2 hg
  cases hgen : js.gen with
  | none =>
    rw [(succeed_fields js i t uri).2.2.2.2.2.2.2.2.2 (by simp [statusInProgress, hgen]),
      hgen] at hg
    cases hg
  | some g =>
    cases g with
    | inProgress d tot =>
      have hgout := (succeed_fields js i t uri).2.2.2.2.2.2.2.2.1 d tot hgen
      rw [hgout] at hg
      cases hg
      obtain ⟨r, hr⟩ := (succeed_fields js i t uri).2.2.2.2.2.2.2.1
      obtain ⟨h1, h2⟩ := h d t2 hgen
      constructor
      · rw [hr, List.length_set]
        exact h1
      · have hlow := length_filter_set_lower (fun tk => ¬ isFinished tk.pc = true)
          js.tasks i t { t with pc := LPC.finished r } ht (by simp [hnf])
          (by simp [isFinished])
        unfold unfinCount at h2 ⊢
        rw [hr]
        omega
    | waiting =>
      rw [(succeed_fields js i t uri).2.2.2.2.2.2.2.2.2 (by simp [statusInProgress, hgen]),
        hgen] at hg
      cases hg
    | error =>
      rw [(succeed_fields js i t uri).2.2.2.2.2.2.2.2.2 (by simp [statusInProgress, hgen]),
        hgen] at hg
      cases hg
    | cancelled =>
      rw [(succeed_fields js i t uri).2.2.2.2.2.2.2.2.2 (by simp [statusInProgress, hgen]),
        hgen] at hg
      cases hg
    | done lyr =>
      rw [(succeed_fields js i t uri).2.2.2.2.2.2.2.2.2 (by simp [statusInProgress, hgen]),
        hgen] at hg
      cases hg

theorem progressInv_step (P : JParams) (js : JobState) (a : JAct)
    (h : ProgressInv js) : ProgressInv (stepJ P js a) := by
  have hset : ∀ (js2 : JobState) (i : Nat) (t : LineTask) (pc2 : LPC),
      js.tasks.get? i = some t → isFinished pc2 = isFinished t.pc →
      js2.gen = js.gen → js2.tasks = js.tasks.set i { t with pc := pc2 } →
      ProgressInv js2 := by
    intro js2 i t pc2 ht hfin hgen htasks d t2 hg
    rw [hgen] at hg
    obtain ⟨h1, h2⟩ := h d t2 hg
    constructor
    · rw [htasks, List.length_set]
      exact h1
    · have heq := length_filter_set (fun tk => ¬ isFinished tk.pc = true)
        js.tasks i t { t with pc := pc2 } ht (by simp [hfin])
      unfold unfinCount at h2 ⊢
      rw [htasks, heq]
      exact h2
  have hvac : ∀ (js2 : JobState), js2.gen = js.gen →
      statusInProgress js.gen = false → ProgressInv js2 := by
    intro js2 hgen hst d t2 hg
    rw [hgen] at hg
    rw [hg] at hst
    cases hst
  cases a with
  | resumeSelect i k ok =>
    simp only [stepJ]
    split
    · exact h
    next t hts =>
      split
      next hpc =>
        split
        · split
          next c hsm => exact hset _ i t _ hts (by rw [hpc]; rfl) rfl rfl
          next hsm =>
            split
            · exact hset _ i t _ hts (by rw [hpc]; rfl) rfl rfl
            · split
              next r hr => exact hset _ i t _ hts (by rw [hpc]; rfl) rfl rfl
              · exact h
        · exact catchFail_progress _ i t
      · exact h
  | resumeDelay i =>
    simp only [stepJ]
    split
    · exact h
    next t hts =>
      split
      next hpc =>
        split
        next hst => exact hset _ i t _ hts (by rw [hpc]; rfl) rfl rfl
        next hst => exact hvac _ rfl (Bool.eq_false_iff.mpr hst)
      · exact h
  | resumePost i k ok =>
    simp only [stepJ]
    split
    · exact h
    next t hts =>
      split
      next c hpc =>
        split
        next w st hcall =>
          split
          · exact succeed_progress _ i t _ hts (by rw [hpc]; rfl) h
          · exact catchFail_progress _ i t
        · exact h
      · exact h
  | resumeShared i k =>
    simp only [stepJ]
    split
    · exact h
    next t hts =>
      split
      next c hpc =>
        split
        · exact succeed_progress _ i t _ hts (by rw [hpc]; rfl) h
        · exact catchFail_progress _ i t
        · exact h
      · exact h
  | resumeFile i ok =>
    simp only [stepJ]
    split
    · exact h
    next t hts =>
      split
      next rid hpc =>
        split
        · split
          · exact succeed_progress _ i t _ hts (by rw [hpc]; rfl) h
          · exact catchFail_progress _ i t
        · exact catchFail_progress _ i t
      · exact h
  | runWrite j =>
    simp only [stepJ]
    split
    · exact h
    · split
      · exact h
      · exact h
  | runIns j =>
    simp only [stepJ]
    split
    · exact h
    · split
      · exact h
      · exact h
  | finishAll =>
    simp only [stepJ]
    split
    · split
      · intro d t2 hg
        exact absurd hg (by simp)
      · exact h
    · exact h
  | timeoutDelete =>
    intro d t2 hg
    exact absurd hg (by simp [stepJ])

theorem progressInv_run (P : JParams) (js : JobState) (acts : List JAct)
    (h : ProgressInv js) : ProgressInv (runJ P js acts) := by
  induction acts generalizing js with
  | nil => exact h
  | cons a rest ih => exact ih (stepJ P js a) (progressInv_step P js a h)

theorem runJ_tasks_len (P : JParams) (js : JobState) (acts : List JAct) :
    (runJ P js acts).tasks.length = js.tasks.length := by
  induction acts generalizing js with
  | nil => rfl
  | cons a rest ih =>
    have hstep : runJ P js (a :: rest) = runJ P (stepJ P js a) rest := rfl
    rw [hstep, ih (stepJ P js a), stepJ_tasks_len]

theorem stepJ_no_resurrect (P : JParams) (js : JobState) (a : JAct)
    (h : statusInProgress js.gen = false) :
    statusInProgress (stepJ P js a).gen = false := by
  rcases stepJ_gen P js a with h1 | h1 | h1 | ⟨d, t, hin, _⟩
  · rw [h1]; exact h
  · rw [h1]; rfl
  · rw [h1]; rfl
  · rw [hin] at h; cases h

theorem runJ_no_resurrect (P : JParams) (js : JobState) (acts : List JAct)
    (h : statusInProgress js.gen = false) :
    statusInProgress (runJ P js acts).gen = false := by
  induction acts generalizing js with
  | nil => exact h
  | cons a rest ih => exact ih (stepJ P js a) (stepJ_no_resurrect P js a h)

theorem runJ_mono (P : JParams) (js : JobState) (acts : List JAct) (d t d2 t2 : Nat)
    (h1 : js.gen = some (Generation.inProgress d t))
    (h2 : (runJ P js acts).gen = some (Generation.inProgress d2 t2)) :
    d ≤ d2 ∧ t2 = t := by
  induction acts generalizing js d t with
  | nil =>
    have h2b : js.gen = some (Generation.inProgress d2 t2) := h2
    rw [h1] at h2b
    cases h2b
    exact ⟨Nat.le_refl _, rfl⟩
  | cons a rest ih =>
    rcases stepJ_gen P js a with hh | hh | hh | ⟨d3, t3, hin, hout⟩
    · exact ih (stepJ P js a) d t (by rw [hh]; exact h1) h2
    · have := runJ_no_resurrect P (stepJ P js a) rest (by rw [hh]; rfl)
      rw [show runJ P (stepJ P js a) rest = runJ P js (a :: rest) from rfl] at this
      rw [h2] at this
      cases this
    · have := runJ_no_resurrect P (stepJ P js a) rest (by rw [hh]; rfl)
      rw [show runJ P (stepJ P js a) rest = runJ P js (a :: rest) from rfl] at this
      rw [h2] at this
      cases this
    · rw [h1] at hin
      cases hin
      rcases hout with hip | ⟨lyr, hdn⟩
      · obtain ⟨hle, heq⟩ := ih (stepJ P js a) (d + 1) t hip h2
        exact ⟨Nat.le_trans (Nat.le_succ d) hle, heq⟩
      · have := runJ_no_resurrect P (stepJ P js a) rest (by rw [hdn]; rfl)
        rw [show runJ P (stepJ P js a) rest = runJ P js (a :: rest) from rfl] at this
        rw [h2] at this
        cases this

/-- **C6.** While a job is `inProgress`, `done ≤ total` with `total` the
line count; `done` never decreases across any later scheduling; and `done`
can only move while the status is exactly `inProgress`: once the status
leaves `inProgress` (error, done, deletion) it never returns. -/
theorem c6_done_monotone :
    ∀ (P : JParams) (lines : List Line) (db0 files0 : List (String × String))
      (acts : List JAct),
      (∀ d t, (runJ P (initJ lines db0 files0) acts).gen = some (Generation.inProgress d t) →
        d ≤ t ∧ t = lines.length) ∧
      (∀ (acts2 : List JAct) (d t d2 t2 : Nat),
        (runJ P (initJ lines db0 files0) acts).gen = some (Generation.inProgress d t) →
        (runJ P (runJ P (initJ lines db0 files0) acts) acts2).gen =
          some (Generation.inProgress d2 t2) →
        d ≤ d2 ∧ t2 = t) ∧
      (statusInProgress (runJ P (initJ lines db0 files0) acts).gen = false →
        ∀ acts2 : List JAct,
          statusInProgress (runJ P (runJ P (initJ lines db0 files0) acts) acts2).gen = false) := by
  intro P lines db0 files0 acts
  have hinit : ProgressInv (initJ lines db0 files0) := by
    intro d t hg
    have hg2 : d = 0 ∧ t = lines.length := by
      simp only [initJ] at hg
      cases hg
      exact ⟨rfl, rfl⟩
    obtain ⟨hd0, ht⟩ := hg2
    subst hd0
    subst ht
    constructor
    · simp [initJ]
    · have : unfinCount (initJ lines db0 files0) ≤ lines.length := by
        unfold unfinCount
        calc ((initJ lines db0 files0).tasks.filter (fun t => ¬ isFinished t.pc = true)).length
            ≤ (initJ lines db0 files0).tasks.length := List.length_filter_le _ _
          _ = lines.length := by simp [initJ]
      omega
  refine ⟨?_, ?_, ?_⟩
  · intro d t hg
    obtain ⟨h1, h2⟩ := progressInv_run P _ acts hinit d t hg
    refine ⟨by omega, ?_⟩
    rw [h1, runJ_tasks_len]
    simp [initJ]
  · intro acts2 d t d2 t2 hg hg2
    exact runJ_mono P _ acts2 d t d2 t2 hg hg2
  · intro hst acts2
    exact runJ_no_resurrect P _ acts2 hst

theorem c6_done_monotone_witness :
    ((runJ ⟨fun w => [w ++ "1"]⟩ (initJ [⟨0, "a"⟩] [] [])
        [JAct.resumeSelect 0 0 true, JAct.resumeDelay 0, JAct.resumePost 0 0 true]).gen =
      some (Generation.inProgress 1 1)) ∧
    ((1 : Nat) ≤ 1 ∧ (1 : Nat) = List.length [(⟨0, "a"⟩ : Line)]) ∧
    ((1 : Nat) ≤ 1 ∧ (1 : Nat) = 1) :=
  ⟨by decide,
    (c6_done_monotone ⟨fun w => [w ++ "1"]⟩ [⟨0, "a"⟩] [] []
      [JAct.resumeSelect 0 0 true, JAct.resumeDelay 0, JAct.resumePost 0 0 true]).1 1 1
      (by decide),
    (c6_done_monotone ⟨fun w => [w ++ "1"]⟩ [⟨0, "a"⟩] [] []
      [JAct.resumeSelect 0 0 true, JAct.resumeDelay 0, JAct.resumePost 0 0 true]).2.1 []
      1 1 1 1 (by decide) (by decide)⟩

theorem get?_set_self {α : Type} (l : List α) (i : Nat) (a b : α)
    (h : l.get? i = some a) : (l.set i b).get? i = some b := by
  have hlt : i < l.length := by
    by_contra hge
    rw [List.get?_eq_none.mpr (Nat.le_of_not_lt hge)] at h
    cases h
  rw [List.get?_set_eq]
  simp [List.getElem?_eq_getElem hlt]

theorem get?_set_ne {α : Type} (l : List α) (i j : Nat) (b : α) (h : ¬ j = i) :
    (l.set i b).get? j = l.get? j := by
  rw [List.get?_set_ne]
  omega

theorem get?_append_l {α : Type} (l l2 : List α) (i : Nat) (a : α)
    (h : l.get? i = some a) : (l ++ l2).get? i = some a := by
  rw [List.get?_append]
  · exact h
  · by_contra hge
    rw [List.get?_eq_none.mpr (Nat.le_of_not_lt hge)] at h
    cases h

theorem get?_append_cases {α : Type} (l l2 : List α) (i : Nat) (y : α)
    (h : (l ++ l2).get? i = some y) :
    l.get? i = some y ∨ (l.length ≤ i ∧ l2.get? (i - l.length) = some y) := by
  by_cases hlt : i < l.length
  · rw [List.get?_append hlt] at h
    exact Or.inl h
  · have hge := Nat.le_of_not_lt hlt
    rw [List.get?_append_right hge] at h
    exact Or.inr ⟨hge, h⟩

theorem spawnIns_length (nid : Nat) (hash : String) (imgs : List String) :
    (spawnIns nid hash imgs).length = imgs.length := by
  induction imgs generalizing nid with
  | nil => rfl
  | cons a rest ih => simp [spawnIns, ih]

theorem spawnIns_exists (nid : Nat) (hash : String) (imgs : List String) (img : String)
    (h : img ∈ imgs) :
    ∃ n r, (spawnIns nid hash imgs).get? n = some r ∧ r.image = img ∧
      r.wordsHash = hash ∧ r.stage = 0 := by
  induction imgs generalizing nid with
  | nil => cases h
  | cons a rest ih =>
    rcases List.mem_cons.mp h with rfl | hmem
    · exact ⟨0, ⟨"img" ++ toString nid, img, hash, 0⟩, rfl, rfl, rfl, rfl⟩
    · obtain ⟨n, r, hn, hr⟩ := ih (nid + 1) hmem
      exact ⟨n + 1, r, by simpa [spawnIns, List.get?] using hn, hr⟩

/-- Cache bookkeeping: every image of every resolved external call is
tracked by a spawned insert body whose progress is reflected in the blob
store and the dedup index. -/
def CacheInv (js : JobState) : Prop :=
  ∀ c w imgs, js.calls.get? c = some (w, CallSt.resolved imgs) →
    ∀ img, img ∈ imgs →
      ∃ jx r, js.inserts.get? jx = some r ∧ r.image = img ∧ r.wordsHash = md5 w ∧
        (1 ≤ r.stage → (r.imageId, img) ∈ js.files) ∧
        (2 ≤ r.stage → (r.imageId, md5 w) ∈ js.db)

theorem cacheInv_move (js2 js3 : JobState) (hc : js3.calls = js2.calls)
    (hi : js3.inserts = js2.inserts) (hf : js3.files = js2.files)
    (hd : js3.db = js2.db) (h : CacheInv js2) : CacheInv js3 := by
  intro c w imgs hcall img hmem
  rw [hc] at hcall
  obtain ⟨jx, r, hjx, h1, h2, h3, h4⟩ := h c w imgs hcall img hmem
  exact ⟨jx, r, by rw [hi]; exact hjx, h1, h2, by rw [hf]; exact h3, by rw [hd]; exact h4⟩

theorem cacheInv_catchFail (js2 : JobState) (i : Nat) (t : LineTask)
    (h : CacheInv js2) : CacheInv (catchFail js2 i t) := by
  have hf := catchFail_fields js2 i t
  exact cacheInv_move js2 _ hf.2.2.1 hf.2.2.2.2.2.2.1 hf.2.2.2.2.2.1 hf.2.2.2.2.1 h

theorem cacheInv_succeed (js2 : JobState) (i : Nat) (t : LineTask) (uri : String)
    (h : CacheInv js2) : CacheInv (succeed js2 i t uri) := by
  have hf := succeed_fields js2 i t uri
  exact cacheInv_move js2 _ hf.2.2.1 hf.2.2.2.2.2.2.1 hf.2.2.2.2.2.1 hf.2.2.2.2.1 h

theorem cacheInv_step (P : JParams) (js : JobState) (a : JAct)
    (h : CacheInv js) : CacheInv (stepJ P js a) := by
  cases a with
  | resumeSelect i k ok =>
    simp only [stepJ]
    split
    · exact h
    next t hts =>
      split
      · split
        · split
          · exact cacheInv_move js _ rfl rfl rfl rfl h
          · split
            · exact cacheInv_move js _ rfl rfl rfl rfl h
            · split
              · exact cacheInv_move js _ rfl rfl rfl rfl h
              · exact h
        · exact cacheInv_catchFail js i t h
      · exact h
  | resumeDelay i =>
    simp only [stepJ]
    split
    · exact h
    next t hts =>
      split
      · split
        · intro c w2 imgs hcall img hmem
          rcases get?_append_cases js.calls [(t.line.words, CallSt.pending)] c
              (w2, CallSt.resolved imgs) hcall with hold | ⟨hge, hnew⟩
          · obtain ⟨jx, r, hjx, h1, h2, h3, h4⟩ := h c w2 imgs hold img hmem
            exact ⟨jx, r, hjx, h1, h2, h3, h4⟩
          · exfalso
            cases hcl : c - js.calls.length with
            | zero =>
              rw [hcl] at hnew
              simp only [List.get?] at hnew
              cases hnew
            | succ m =>
              rw [hcl] at hnew
              simp only [List.get?] at hnew
              cases hnew
        · exact cacheInv_move js _ rfl rfl rfl rfl h
      · exact h
  | resumePost i k ok =>
    simp only [stepJ]
    split
    · exact h
    next t hts =>
      split
      next c0 hpc =>
        split
        next w0 hcallg =>
          split
          · refine cacheInv_succeed _ i t _ ?_
            intro c2 w2 imgs2 hcall img hmem
            by_cases hc2 : c2 = c0
            · subst hc2
              rw [get?_set_self js.calls c2 (w0, CallSt.pending)
                  (t.line.words, CallSt.resolved (P.genImages t.line.words)) hcallg] at hcall
              cases hcall
              obtain ⟨n, r, hn, himg, hhash, hstage⟩ :=
                spawnIns_exists js.nextId (md5 t.line.words) (P.genImages t.line.words) img hmem
              refine ⟨js.inserts.length + n, r, ?_, himg, hhash, ?_, ?_⟩
              · rw [List.get?_append_right (Nat.le_add_right _ _)]
                simpa [Nat.add_sub_cancel_left] using hn
              · intro h10
                rw [hstage] at h10
                cases h10
              · intro h20
                rw [hstage] at h20
                cases h20
            · rw [get?_set_ne js.calls c0 c2 _ hc2] at hcall
              obtain ⟨jx, r, hjx, h1, h2, h3, h4⟩ := h c2 w2 imgs2 hcall img hmem
              exact ⟨jx, r, get?_append_l _ _ _ _ hjx, h1, h2, h3, h4⟩
          · refine cacheInv_catchFail _ i t ?_
            intro c2 w2 imgs2 hcall img hmem
            by_cases hc2 : c2 = c0
            · subst hc2
              rw [get?_set_self js.calls c2 (w0, CallSt.pending)
                  (t.line.words, CallSt.failed) hcallg] at hcall
              cases hcall
            · rw [get?_set_ne js.calls c0 c2 _ hc2] at hcall
              exact h c2 w2 imgs2 hcall img hmem
        · exact h
      · exact h
  | resumeShared i k =>
    simp only [stepJ]
    split
    · exact h
    next t hts =>
      split
      next c0 hpc =>
        split
        · exact cacheInv_succeed _ i t _ h
        · exact cacheInv_catchFail _ i t h
        · exact h
      · exact h
  | resumeFile i ok =>
    simp only [stepJ]
    split
    · exact h
    next t hts =>
      split
      next rid hpc =>
        split
        · split
          · exact cacheInv_succeed _ i t _ h
          · exact cacheInv_catchFail _ i t h
        · exact cacheInv_catchFail _ i t h
      · exact h
  | runWrite j =>
    simp only [stepJ]
    split
    · exact h
    next r0 hj0 =>
      split
      next hst0 =>
        intro c w imgs hcall img hmem
        obtain ⟨jx, r, hjx, h1, h2, h3, h4⟩ := h c w imgs hcall img hmem
        by_cases hjj : jx = j
        · subst hjj
          rw [hj0] at hjx
          cases hjx
          refine ⟨jx, { r0 with stage := 1 }, get?_set_self _ _ _ _ hj0, h1, h2, ?_, ?_⟩
          · intro _
            rw [← h1]
            exact List.mem_append_right _ (by simp)
          · intro h20
            simp at h20
        · refine ⟨jx, r, ?_, h1, h2, ?_, ?_⟩
          · rw [get?_set_ne _ _ _ _ hjj]
            exact hjx
          · intro h10
            exact List.mem_append_left _ (h3 h10)
          · exact h4
      · exact h
  | runIns j =>
    simp only [stepJ]
    split
    · exact h
    next r0 hj0 =>
      split
      next hst0 =>
        intro c w imgs hcall img hmem
        obtain ⟨jx, r, hjx, h1, h2, h3, h4⟩ := h c w imgs hcall img hmem
        by_cases hjj : jx = j
        · subst hjj
          rw [hj0] at hjx
          cases hjx
          refine ⟨jx, { r0 with stage := 2 }, get?_set_self _ _ _ _ hj0, h1, h2, ?_, ?_⟩
          · intro _
            exact h3 (by omega)
          · intro _
            rw [← h2]
            exact List.mem_append_right _ (by simp)
        · refine ⟨jx, r, ?_, h1, h2, h3, ?_⟩
          · rw [get?_set_ne _ _ _ _ hjj]
            exact hjx
          · intro h20
            exact List.mem_append_left _ (h4 h20)
      · exact h
  | finishAll =>
    simp only [stepJ]
    split
    · split
      · exact cacheInv_move js _ rfl rfl rfl rfl h
      · exact h
    · exact h
  | timeoutDelete => exact cacheInv_move js _ rfl rfl rfl rfl h

theorem cacheInv_run (P : JParams) (js : JobState) (acts : List JAct)
    (h : CacheInv js) : CacheInv (runJ P js acts) := by
  induction acts generalizing js with
  | nil => exact h
  | cons a rest ih => exact ih (stepJ P js a) (cacheInv_step P js a h)

/-- **C10.** When an external generation call resolves successfully, the
returned images are handed to cache-insert bodies and the call is marked
resolved even when the job is no longer `inProgress` at that moment (the
spawn is deliberately not guarded by the cooperative cancellation check,
and the job stays non-`inProgress`); and once every spawned insert body has
run to completion, each image of each resolved call is stored in the blob
store and the dedup index — regardless of how the job ended. -/
theorem c10_cache_despite_abort :
    (∀ (P : JParams) (js : JobState) (i k : Nat) (t : LineTask) (c : Nat) (w0 : String),
      js.tasks.get? i = some t → t.pc = LPC.awaitPost c →
      js.calls.get? c = some (w0, CallSt.pending) →
      statusInProgress js.gen = false →
      (stepJ P js (JAct.resumePost i k true)).calls.get? c =
          some (t.line.words, CallSt.resolved (P.genImages t.line.words)) ∧
      (stepJ P js (JAct.resumePost i k true)).inserts.length =
          js.inserts.length + (P.genImages t.line.words).length ∧
      statusInProgress (stepJ P js (JAct.resumePost i k true)).gen = false) ∧
    (∀ (P : JParams) (lines : List Line) (db0 files0 : List (String × String))
        (acts : List JAct) (c : Nat) (w : String) (imgs : List String) (img : String),
      (∀ r, r ∈ (runJ P (initJ lines db0 files0) acts).inserts → r.stage = 2) →
      (runJ P (initJ lines db0 files0) acts).calls.get? c = some (w, CallSt.resolved imgs) →
      img ∈ imgs →
      ∃ imageId, (imageId, img) ∈ (runJ P (initJ lines db0 files0) acts).files ∧
        (imageId, md5 w) ∈ (runJ P (initJ lines db0 files0) acts).db) := by
  constructor
  · intro P js i k t c w0 hts hpc hcallg hstatus
    simp only [stepJ, hts, hpc, hcallg, if_true]
    have hff := succeed_fields
      { js with
        calls := js.calls.set c (t.line.words, CallSt.resolved (P.genImages t.line.words))
        inserts := js.inserts ++ spawnIns js.nextId (md5 t.line.words) (P.genImages t.line.words)
        nextId := js.nextId + (P.genImages t.line.words).length } i t
      (dataUriPrefix ++ getRandomElement (P.genImages t.line.words) k)
    refine ⟨?_, ?_, ?_⟩
    · rw [hff.2.2.1]
      exact get?_set_self js.calls c _ _ hcallg
    · rw [hff.2.2.2.2.2.2.1]
      simp only [List.length_append, spawnIns_length]
    · rw [hff.2.2.2.2.2.2.2.2.2 hstatus]
      exact hstatus
  · intro P lines db0 files0 acts c w imgs img hstages hcall hmem
    have hinit : CacheInv (initJ lines db0 files0) := by
      intro c2 w2 imgs2 hc2 img2 hm2
      simp [initJ] at hc2
    obtain ⟨jx, r, hjx, h1, h2, h3, h4⟩ :=
      cacheInv_run P _ acts hinit c w imgs hcall img hmem
    have hrmem : r ∈ (runJ P (initJ lines db0 files0) acts).inserts :=
      List.get?_mem hjx
    have hstage := hstages r hrmem
    refine ⟨r.imageId, ?_, ?_⟩
    · exact h3 (by omega)
    · exact h4 (by omega)

theorem c10_cache_despite_abort_witness :
    ((stepJ ⟨fun w => [w ++ "1", w ++ "2"]⟩
        (runJ ⟨fun w => [w ++ "1", w ++ "2"]⟩ (initJ [⟨0, "a"⟩] [] [])
          [JAct.resumeSelect 0 0 true, JAct.resumeDelay 0, JAct.timeoutDelete])
        (JAct.resumePost 0 0 true)).calls.get? 0 =
      some ("a", CallSt.resolved ["a1", "a2"])) ∧
    (∃ imageId,
      (imageId, "a1") ∈ (runJ ⟨fun w => [w ++ "1", w ++ "2"]⟩ (initJ [⟨0, "a"⟩] [] [])
        [JAct.resumeSelect 0 0 true, JAct.resumeDelay 0, JAct.timeoutDelete,
          JAct.resumePost 0 0 true, JAct.runWrite 0, JAct.runIns 0, JAct.runWrite 1,
          JAct.runIns 1]).files ∧
      (imageId, md5 "a") ∈ (runJ ⟨fun w => [w ++ "1", w ++ "2"]⟩ (initJ [⟨0, "a"⟩] [] [])
        [JAct.resumeSelect 0 0 true, JAct.resumeDelay 0, JAct.timeoutDelete,
          JAct.resumePost 0 0 true, JAct.runWrite 0, JAct.runIns 0, JAct.runWrite 1,
          JAct.runIns 1]).db) := by
  constructor
  · exact (c10_cache_despite_abort.1 ⟨fun w => [w ++ "1", w ++ "2"]⟩
      (runJ ⟨fun w => [w ++ "1", w ++ "2"]⟩ (initJ [⟨0, "a"⟩] [] [])
        [JAct.resumeSelect 0 0 true, JAct.resumeDelay 0, JAct.timeoutDelete]) 0 0
      ⟨⟨0, "a"⟩, LPC.awaitPost 0⟩ 0 "a" (by decide) rfl (by decide) (by decide)).1
  · exact c10_cache_despite_abort.2 ⟨fun w => [w ++ "1", w ++ "2"]⟩ [⟨0, "a"⟩] [] []
      [JAct.resumeSelect 0 0 true, JAct.resumeDelay 0, JAct.timeoutDelete,
        JAct.resumePost 0 0 true, JAct.runWrite 0, JAct.runIns 0, JAct.runWrite 1,
        JAct.runIns 1] 0 "a" ["a1", "a2"] "a1" (by decide) (by decide) (by decide)

/-- The uncached branch is taken: the line found neither a cache record
nor a registered in-flight request for its words at its check. -/
def takesElseFor (js : JobState) (a : JAct) (w : String) : Bool :=
  match a with
  | JAct.resumeSelect i _ ok =>
      ok &&
        match js.tasks.get? i with
        | some t =>
            decide (t.pc = LPC.awaitSelect) && decide (t.line.words = w) &&
              decide (js.sharedMap w = none) &&
              (js.db.filter (fun r => r.2 = md5 w)).isEmpty
        | none => false
  | _ => false

/-- The racy schedule: a line enters the uncached branch for `w` while
another line with the same words sits between its `uncachedIndex++` and its
`axios.post` — the registration the later check relies on has not happened
yet. -/
def badStep (js : JobState) (a : JAct) (w : String) : Bool :=
  takesElseFor js a w && decide (1 ≤ atDelayCount js w)

/-- No step of the schedule races on `w`. -/
def raceFreeFor (P : JParams) (js : JobState) (acts : List JAct) (w : String) : Bool :=
  match acts with
  | [] => true
  | a :: rest => !badStep js a w && raceFreeFor P (stepJ P js a) rest w

/-- Dedup bookkeeping: the in-flight map mirrors the call log, and every
suspended task points at the call registered for its own words. -/
def SharedInv (js : JobState) : Prop :=
  (∀ w, (js.sharedMap w).isSome = true ↔ 1 ≤ calledCount js w) ∧
  (∀ i t c, js.tasks.get? i = some t → t.pc = LPC.awaitPost c →
    ∃ st, js.calls.get? c = some (t.line.words, st)) ∧
  (∀ i t c, js.tasks.get? i = some t → t.pc = LPC.awaitShared c →
    ∃ st, js.calls.get? c = some (t.line.words, st)) ∧
  (∀ w c, js.sharedMap w = some c → ∃ st, js.calls.get? c = some (w, st))

theorem calledCount_append_ne (C : List (String × CallSt)) (x : String) (st : CallSt)
    (w : String) (h : ¬ x = w) :
    ((C ++ [(x, st)]).filter (fun p => p.1 = w)).length =
      (C.filter (fun p => p.1 = w)).length := by
  simp [List.filter_append, h]

theorem calledCount_append_self (C : List (String × CallSt)) (w : String) (st : CallSt) :
    ((C ++ [(w, st)]).filter (fun p => p.1 = w)).length =
      (C.filter (fun p => p.1 = w)).length + 1 := by
  simp [List.filter_append]

theorem getRandomElement_mem (l : List String) (k : Nat) (h : l ≠ []) :
    getRandomElement l k ∈ l := by
  unfold getRandomElement
  have hlen : 0 < l.length := List.length_pos.mpr h
  have hlt : k % l.length < l.length := Nat.mod_lt k hlen
  cases hg : l.get? (k % l.length) with
  | none =>
    rw [List.get?_eq_none] at hg
    omega
  | some x =>
    simp only [Option.getD]
    exact List.get?_mem hg

theorem sharedInv_move (js2 js3 : JobState) (hc : js3.calls = js2.calls)
    (hm : js3.sharedMap = js2.sharedMap) (ht : js3.tasks = js2.tasks)
    (h : SharedInv js2) : SharedInv js3 := by
  obtain ⟨h1, h2, h3, h4⟩ := h
  refine ⟨?_, ?_, ?_, ?_⟩
  · intro w
    unfold calledCount
    rw [hc, hm]
    exact h1 w
  · intro i t c hget hpc
    rw [ht] at hget
    rw [hc]
    exact h2 i t c hget hpc
  · intro i t c hget hpc
    rw [ht] at hget
    rw [hc]
    exact h3 i t c hget hpc
  · intro w c hmw
    rw [hm] at hmw
    rw [hc]
    exact h4 w c hmw

theorem sharedInv_setTask (js : JobState) (i : Nat) (t : LineTask) (pc2 : LPC)
    (hts : js.tasks.get? i = some t)
    (hnp : ∀ c, ¬ pc2 = LPC.awaitPost c) (hns : ∀ c, ¬ pc2 = LPC.awaitShared c)
    (h : SharedInv js) :
    SharedInv { js with tasks := js.tasks.set i { t with pc := pc2 } } := by
  obtain ⟨h1, h2, h3, h4⟩ := h
  refine ⟨h1, ?_, ?_, h4⟩
  · intro i2 t2 c2 hget hpc2
    by_cases hii : i2 = i
    · subst hii
      rw [get?_set_self _ _ _ _ hts] at hget
      cases hget
      exact absurd hpc2 (hnp c2)
    · rw [get?_set_ne _ _ _ _ hii] at hget
      exact h2 i2 t2 c2 hget hpc2
  · intro i2 t2 c2 hget hpc2
    by_cases hii : i2 = i
    · subst hii
      rw [get?_set_self _ _ _ _ hts] at hget
      cases hget
      exact absurd hpc2 (hns c2)
    · rw [get?_set_ne _ _ _ _ hii] at hget
      exact h3 i2 t2 c2 hget hpc2

theorem sharedInv_catchFail (js : JobState) (i : Nat) (t : LineTask)
    (hts : js.tasks.get? i = some t) (h : SharedInv js) :
    SharedInv (catchFail js i t) := by
  have hf := catchFail_fields js i t
  obtain ⟨r, hr⟩ := hf.2.2.2.2.2.2.2.1
  have hbase := sharedInv_setTask js i t (LPC.finished r) hts
    (fun c hc => by cases hc) (fun c hc => by cases hc) h
  exact sharedInv_move { js with tasks := js.tasks.set i { t with pc := LPC.finished r } } _
    hf.2.2.1 hf.2.2.2.1 hr hbase

theorem sharedInv_succeed (js : JobState) (i : Nat) (t : LineTask) (uri : String)
    (hts : js.tasks.get? i = some t) (h : SharedInv js) :
    SharedInv (succeed js i t uri) := by
  have hf := succeed_fields js i t uri
  obtain ⟨r, hr⟩ := hf.2.2.2.2.2.2.2.1
  have hbase := sharedInv_setTask js i t (LPC.finished r) hts
    (fun c hc => by cases hc) (fun c hc => by cases hc) h
  exact sharedInv_move { js with tasks := js.tasks.set i { t with pc := LPC.finished r } } _
    hf.2.2.1 hf.2.2.2.1 hr hbase

theorem sharedInv_setCall (js : JobState) (c : Nat) (w0 wN : String) (st0 st1 : CallSt)
    (hc : js.calls.get? c = some (w0, st0)) (hwN : wN = w0) (h : SharedInv js) :
    SharedInv { js with calls := js.calls.set c (wN, st1) } := by
  subst hwN
  obtain ⟨h1, h2, h3, h4⟩ := h
  have hcount : ∀ w, ((js.calls.set c (wN, st1)).filter (fun p => p.1 = w)).length =
      (js.calls.filter (fun p => p.1 = w)).length := by
    intro w
    exact length_filter_set _ js.calls c (wN, st0) (wN, st1) hc rfl
  refine ⟨?_, ?_, ?_, ?_⟩
  · intro w
    unfold calledCount at h1 ⊢
    simp only []
    rw [hcount w]
    exact h1 w
  · intro i t c2 hget hpc
    obtain ⟨st, hst⟩ := h2 i t c2 hget hpc
    by_cases hcc : c2 = c
    · subst hcc
      rw [hst] at hc
      cases hc
      exact ⟨st1, get?_set_self _ _ _ _ hst⟩
    · exact ⟨st, by rw [get?_set_ne _ _ _ _ hcc]; exact hst⟩
  · intro i t c2 hget hpc
    obtain ⟨st, hst⟩ := h3 i t c2 hget hpc
    by_cases hcc : c2 = c
    · subst hcc
      rw [hst] at hc
      cases hc
      exact ⟨st1, get?_set_self _ _ _ _ hst⟩
    · exact ⟨st, by rw [get?_set_ne _ _ _ _ hcc]; exact hst⟩
  · intro w c2 hmw
    obtain ⟨st, hst⟩ := h4 w c2 hmw
    by_cases hcc : c2 = c
    · subst hcc
      rw [hst] at hc
      cases hc
      exact ⟨st1, get?_set_self _ _ _ _ hst⟩
    · exact ⟨st, by rw [get?_set_ne _ _ _ _ hcc]; exact hst⟩

theorem sharedInv_step (P : JParams) (js : JobState) (a : JAct)
    (h : SharedInv js) : SharedInv (stepJ P js a) := by
  cases a with
  | resumeSelect i k ok =>
    simp only [stepJ]
    split
    · exact h
    next t hts =>
      split
      next hpc =>
        split
        · split
          next c hsm =>
            obtain ⟨h1, h2, h3, h4⟩ := h
            refine ⟨?_, ?_, ?_, ?_⟩ <;> (try dsimp only)
            · exact h1
            · intro i2 t2 c2 hget hpc2
              by_cases hii : i2 = i
              · subst hii
                rw [get?_set_self _ _ _ _ hts] at hget
                cases hget
                cases hpc2
              · rw [get?_set_ne _ _ _ _ hii] at hget
                exact h2 i2 t2 c2 hget hpc2
            · intro i2 t2 c2 hget hpc2
              by_cases hii : i2 = i
              · subst hii
                rw [get?_set_self _ _ _ _ hts] at hget
                cases hget
                cases hpc2
                exact h4 t.line.words c hsm
              · rw [get?_set_ne _ _ _ _ hii] at hget
                exact h3 i2 t2 c2 hget hpc2
            · exact h4
          next hsm =>
            split
            · exact sharedInv_setTask js i t LPC.awaitDelay hts
                (fun c hc => by cases hc) (fun c hc => by cases hc) h
            · split
              · exact sharedInv_setTask js i t (LPC.awaitFile _) hts
                  (fun c hc => by cases hc) (fun c hc => by cases hc) h
              · exact h
        · exact sharedInv_catchFail js i t hts h
      · exact h
  | resumeDelay i =>
    simp only [stepJ]
    split
    · exact h
    next t hts =>
      split
      next hpc =>
        split
        next hst =>
          obtain ⟨h1, h2, h3, h4⟩ := h
          refine ⟨?_, ?_, ?_, ?_⟩ <;> (try dsimp only)
          · intro w
            by_cases hw : w = t.line.words
            · subst hw
              rw [upd_self]
              constructor
              · intro _
                unfold calledCount
                dsimp only
                rw [calledCount_append_self]
                omega
              · intro _
                rfl
            · rw [upd_ne _ _ _ _ hw]
              unfold calledCount
              dsimp only
              rw [calledCount_append_ne js.calls t.line.words CallSt.pending w
                (fun e => hw e.symm)]
              exact h1 w
          · intro i2 t2 c2 hget hpc2
            by_cases hii : i2 = i
            · subst hii
              rw [get?_set_self _ _ _ _ hts] at hget
              cases hget
              cases hpc2
              refine ⟨CallSt.pending, ?_⟩
              rw [List.get?_append_right (Nat.le_refl _)]
              simp
            · rw [get?_set_ne _ _ _ _ hii] at hget
              obtain ⟨st, hst2⟩ := h2 i2 t2 c2 hget hpc2
              exact ⟨st, get?_append_l _ _ _ _ hst2⟩
          · intro i2 t2 c2 hget hpc2
            by_cases hii : i2 = i
            · subst hii
              rw [get?_set_self _ _ _ _ hts] at hget
              cases hget
              cases hpc2
            · rw [get?_set_ne _ _ _ _ hii] at hget
              obtain ⟨st, hst2⟩ := h3 i2 t2 c2 hget hpc2
              exact ⟨st, get?_append_l _ _ _ _ hst2⟩
          · intro w c2 hmw
            by_cases hw : w = t.line.words
            · subst hw
              rw [upd_self] at hmw
              cases hmw
              refine ⟨CallSt.pending, ?_⟩
              rw [List.get?_append_right (Nat.le_refl _)]
              simp
            · rw [upd_ne _ _ _ _ hw] at hmw
              obtain ⟨st, hst2⟩ := h4 w c2 hmw
              exact ⟨st, get?_append_l _ _ _ _ hst2⟩
        next hst =>
          exact sharedInv_setTask js i t (LPC.finished none) hts
            (fun c hc => by cases hc) (fun c hc => by cases hc) h
      · exact h
  | resumePost i k ok =>
    simp only [stepJ]
    split
    · exact h
    next t hts =>
      split
      next c0 hpc =>
        split
        next w0 hcallg =>
          have hw0 : t.line.words = w0 := by
            obtain ⟨st, hst⟩ := h.2.1 i t c0 hts hpc
            rw [hst] at hcallg
            cases hcallg
            rfl
          split
          · refine sharedInv_succeed _ i t _ hts ?_
            exact sharedInv_move
              { js with calls := js.calls.set c0 (t.line.words, CallSt.resolved
                  (P.genImages t.line.words)) } _ rfl rfl rfl
              (sharedInv_setCall js c0 w0 t.line.words CallSt.pending
                (CallSt.resolved (P.genImages t.line.words)) hcallg hw0 h)
          · exact sharedInv_catchFail _ i t hts
              (sharedInv_setCall js c0 w0 t.line.words CallSt.pending CallSt.failed
                hcallg hw0 h)
        · exact h
      · exact h
  | resumeShared i k =>
    simp only [stepJ]
    split
    · exact h
    next t hts =>
      split
      next c0 hpc =>
        split
        · exact sharedInv_succeed _ i t _ hts h
        · exact sharedInv_catchFail _ i t hts h
        · exact h
      · exact h
  | resumeFile i ok =>
    simp only [stepJ]
    split
    · exact h
    next t hts =>
      split
      next rid hpc =>
        split
        · split
          · exact sharedInv_succeed _ i t _ hts h
          · exact sharedInv_catchFail _ i t hts h
        · exact sharedInv_catchFail _ i t hts h
      · exact h
  | runWrite j =>
    simp only [stepJ]
    split
    · exact h
    · split
      · exact sharedInv_move js _ rfl rfl rfl h
      · exact h
  | runIns j =>
    simp only [stepJ]
    split
    · exact h
    · split
      · exact sharedInv_move js _ rfl rfl rfl h
      · exact h
  | finishAll =>
    simp only [stepJ]
    split
    · split
      · exact sharedInv_move js _ rfl rfl rfl h
      · exact h
    · exact h
  | timeoutDelete => exact sharedInv_move js _ rfl rfl rfl h

theorem length_filter_set_raise {α : Type} (p : α → Bool) (l : List α) (i : Nat) (x y : α)
    (hx : l.get? i = some x) (hpx : p x = false) (hpy : p y = true) :
    ((l.set i y).filter p).length = (l.filter p).length + 1 := by
  induction l generalizing i with
  | nil => cases hx
  | cons a tl ih =>
    cases i with
    | zero =>
      have hax : a = x := by
        simp only [List.get?] at hx
        exact Option.some.inj hx
      subst hax
      simp [List.set, List.filter_cons, hpx, hpy]
    | succ n =>
      have hx2 : tl.get? n = some x := by simpa [List.get?] using hx
      simp only [List.set, List.filter_cons]
      cases hpa : p a <;> simp [hpa, ih n hx2]

theorem calledCount_succeed (js : JobState) (i : Nat) (t : LineTask) (uri w : String) :
    calledCount (succeed js i t uri) w = calledCount js w := by
  unfold calledCount
  rw [(succeed_fields js i t uri).2.2.1]

theorem calledCount_catchFail (js : JobState) (i : Nat) (t : LineTask) (w : String) :
    calledCount (catchFail js i t) w = calledCount js w := by
  unfold calledCount
  rw [(catchFail_fields js i t).2.2.1]

theorem atDelayCount_succeed (js : JobState) (i : Nat) (t : LineTask) (uri w : String)
    (hts : js.tasks.get? i = some t) (hnd : ¬ t.pc = LPC.awaitDelay) :
    atDelayCount (succeed js i t uri) w = atDelayCount js w := by
  obtain ⟨r, hr⟩ := (succeed_fields js i t uri).2.2.2.2.2.2.2.1
  unfold atDelayCount
  rw [hr]
  exact length_filter_set _ js.tasks i t _ hts (by simp [hnd])

theorem atDelayCount_catchFail (js : JobState) (i : Nat) (t : LineTask) (w : String)
    (hts : js.tasks.get? i = some t) (hnd : ¬ t.pc = LPC.awaitDelay) :
    atDelayCount (catchFail js i t) w = atDelayCount js w := by
  obtain ⟨r, hr⟩ := (catchFail_fields js i t).2.2.2.2.2.2.2.1
  unfold atDelayCount
  rw [hr]
  exact length_filter_set _ js.tasks i t _ hts (by simp [hnd])

/-- How one step moves the per-words accounting, given the in-flight map
bookkeeping: the counts are untouched, a fresh uncached-branch entry raises
the waiting count, the `axios.post` trades a waiting entry for a call, or a
waiting entry is abandoned on a cancelled job. -/
theorem stepJ_counts (P : JParams) (js : JobState) (a : JAct) (w : String)
    (hS : SharedInv js) :
    (calledCount (stepJ P js a) w = calledCount js w ∧
      atDelayCount (stepJ P js a) w = atDelayCount js w) ∨
    (takesElseFor js a w = true ∧
      calledCount (stepJ P js a) w = calledCount js w ∧
      atDelayCount (stepJ P js a) w = atDelayCount js w + 1) ∨
    (calledCount (stepJ P js a) w = calledCount js w + 1 ∧
      atDelayCount (stepJ P js a) w + 1 = atDelayCount js w) ∨
    (calledCount (stepJ P js a) w = calledCount js w ∧
      atDelayCount (stepJ P js a) w + 1 = atDelayCount js w) := by
  cases a with
  | resumeSelect i k ok =>
    simp only [stepJ]
    split
    · exact Or.inl ⟨rfl, rfl⟩
    next t hts =>
      split
      next hpc =>
        split
        next hok =>
          split
          next c hsm =>
            refine Or.inl ⟨rfl, ?_⟩
            unfold atDelayCount
            dsimp only
            exact length_filter_set _ js.tasks i t _ hts (by simp [hpc])
          next hsm =>
            split
            next hemp =>
              by_cases hw : t.line.words = w
              · refine Or.inr (Or.inl ⟨?_, rfl, ?_⟩)
                · subst hw
                  have hts2 : js.tasks[i]? = some t := by
                    rw [← List.get?_eq_getElem?]
                    exact hts
                  simp [takesElseFor, hts2, hok, hpc, hsm, hemp]
                · unfold atDelayCount
                  dsimp only
                  exact length_filter_set_raise _ js.tasks i t _ hts (by simp [hpc])
                    (by simp [hw])
              · refine Or.inl ⟨rfl, ?_⟩
                unfold atDelayCount
                dsimp only
                exact length_filter_set _ js.tasks i t _ hts (by simp [hw])
            · split
              next r hr =>
                refine Or.inl ⟨rfl, ?_⟩
                unfold atDelayCount
                dsimp only
                exact length_filter_set _ js.tasks i t _ hts (by simp [hpc])
              · exact Or.inl ⟨rfl, rfl⟩
        next hok =>
          refine Or.inl ⟨calledCount_catchFail js i t w, ?_⟩
          exact atDelayCount_catchFail js i t w hts (by rw [hpc]; intro hh; cases hh)
      · exact Or.inl ⟨rfl, rfl⟩
  | resumeDelay i =>
    simp only [stepJ]
    split
    · exact Or.inl ⟨rfl, rfl⟩
    next t hts =>
      split
      next hpc =>
        split
        next hst =>
          by_cases hw : t.line.words = w
          · refine Or.inr (Or.inr (Or.inl ⟨?_, ?_⟩))
            · unfold calledCount
              dsimp only
              subst hw
              exact calledCount_append_self js.calls t.line.words CallSt.pending
            · unfold atDelayCount
              dsimp only
              exact length_filter_set_lower _ js.tasks i t _ hts (by simp [hw, hpc])
                (by simp)
          · refine Or.inl ⟨?_, ?_⟩
            · unfold calledCount
              dsimp only
              exact calledCount_append_ne js.calls t.line.words CallSt.pending w hw
            · unfold atDelayCount
              dsimp only
              exact length_filter_set _ js.tasks i t _ hts (by simp [hw])
        next hst =>
          by_cases hw : t.line.words = w
          · refine Or.inr (Or.inr (Or.inr ⟨rfl, ?_⟩))
            unfold atDelayCount
            dsimp only
            exact length_filter_set_lower _ js.tasks i t _ hts (by simp [hw, hpc])
              (by simp)
          · refine Or.inl ⟨rfl, ?_⟩
            unfold atDelayCount
            dsimp only
            exact length_filter_set _ js.tasks i t _ hts (by simp [hw])
      · exact Or.inl ⟨rfl, rfl⟩
  | resumePost i k ok =>
    simp only [stepJ]
    split
    · exact Or.inl ⟨rfl, rfl⟩
    next t hts =>
      split
      next c0 hpc =>
        split
        next w0 hcallg =>
          have hw0 : t.line.words = w0 := by
            obtain ⟨st, hst⟩ := hS.2.1 i t c0 hts hpc
            rw [hst] at hcallg
            cases hcallg
            rfl
          have hcnt : ∀ (stN : CallSt),
              ((js.calls.set c0 (t.line.words, stN)).filter
                (fun p => p.1 = w)).length =
              (js.calls.filter (fun p => p.1 = w)).length := by
            intro stN
            exact length_filter_set _ js.calls c0 (w0, CallSt.pending)
              (t.line.words, stN) hcallg (by rw [hw0])
          split
          · refine Or.inl ⟨?_, ?_⟩
            · rw [calledCount_succeed]
              unfold calledCount
              dsimp only
              exact hcnt _
            · rw [atDelayCount_succeed _ i t _ w (by dsimp only; exact hts)
                (by rw [hpc]; intro hh; cases hh)]
              rfl
          · refine Or.inl ⟨?_, ?_⟩
            · rw [calledCount_catchFail]
              unfold calledCount
              dsimp only
              exact hcnt _
            · rw [atDelayCount_catchFail _ i t w (by dsimp only; exact hts)
                (by rw [hpc]; intro hh; cases hh)]
              rfl
        · exact Or.inl ⟨rfl, rfl⟩
      · exact Or.inl ⟨rfl, rfl⟩
  | resumeShared i k =>
    simp only [stepJ]
    split
    · exact Or.inl ⟨rfl, rfl⟩
    next t hts =>
      split
      next c0 hpc =>
        split
        · exact Or.inl ⟨calledCount_succeed js i t _ w,
            atDelayCount_succeed js i t _ w hts (by rw [hpc]; intro hh; cases hh)⟩
        · exact Or.inl ⟨calledCount_catchFail js i t w,
            atDelayCount_catchFail js i t w hts (by rw [hpc]; intro hh; cases hh)⟩
        · exact Or.inl ⟨rfl, rfl⟩
      · exact Or.inl ⟨rfl, rfl⟩
  | resumeFile i ok =>
    simp only [stepJ]
    split
    · exact Or.inl ⟨rfl, rfl⟩
    next t hts =>
      split
      next rid hpc =>
        split
        · split
          · exact Or.inl ⟨calledCount_succeed js i t _ w,
              atDelayCount_succeed js i t _ w hts (by rw [hpc]; intro hh; cases hh)⟩
          · exact Or.inl ⟨calledCount_catchFail js i t w,
              atDelayCount_catchFail js i t w hts (by rw [hpc]; intro hh; cases hh)⟩
        · exact Or.inl ⟨calledCount_catchFail js i t w,
            atDelayCount_catchFail js i t w hts (by rw [hpc]; intro hh; cases hh)⟩
      · exact Or.inl ⟨rfl, rfl⟩
  | runWrite j =>
    simp only [stepJ]
    split
    · exact Or.inl ⟨rfl, rfl⟩
    · split
      · exact Or.inl ⟨rfl, rfl⟩
      · exact Or.inl ⟨rfl, rfl⟩
  | runIns j =>
    simp only [stepJ]
    split
    · exact Or.inl ⟨rfl, rfl⟩
    · split
      · exact Or.inl ⟨rfl, rfl⟩
      · exact Or.inl ⟨rfl, rfl⟩
  | finishAll =>
    simp only [stepJ]
    split
    · split
      · exact Or.inl ⟨rfl, rfl⟩
      · exact Or.inl ⟨rfl, rfl⟩
    · exact Or.inl ⟨rfl, rfl⟩
  | timeoutDelete => exact Or.inl ⟨rfl, rfl⟩

/-- At most one generation request is accounted for per words: issued calls
plus lines sitting between `uncachedIndex++` and the `axios.post`. -/
def QInv (js : JobState) (w : String) : Prop :=
  calledCount js w + atDelayCount js w ≤ 1

theorem takesElse_sharedMap_none (js : JobState) (a : JAct) (w : String)
    (h : takesElseFor js a w = true) : js.sharedMap w = none := by
  cases a with
  | resumeSelect i k ok =>
    simp only [takesElseFor] at h
    cases hts : js.tasks.get? i with
    | none =>
      rw [hts] at h
      simp at h
    | some t =>
      rw [hts] at h
      simp only [Bool.and_eq_true, decide_eq_true_eq] at h
      exact h.2.1.2
  | resumeDelay i => simp [takesElseFor] at h
  | resumePost i k ok => simp [takesElseFor] at h
  | resumeShared i k => simp [takesElseFor] at h
  | resumeFile i ok => simp [takesElseFor] at h
  | runWrite j => simp [takesElseFor] at h
  | runIns j => simp [takesElseFor] at h
  | finishAll => simp [takesElseFor] at h
  | timeoutDelete => simp [takesElseFor] at h

theorem qInv_step (P : JParams) (js : JobState) (a : JAct) (w : String)
    (hS : SharedInv js) (hQ : QInv js w) (hbad : badStep js a w = false) :
    QInv (stepJ P js a) w := by
  unfold QInv at hQ ⊢
  rcases stepJ_counts P js a w hS with ⟨hc, hd⟩ | ⟨htke, hc, hd⟩ | ⟨hc, hd⟩ | ⟨hc, hd⟩
  · omega
  · have hdz : atDelayCount js w = 0 := by
      unfold badStep at hbad
      rw [htke] at hbad
      simp at hbad
      omega
    have hcz : calledCount js w = 0 := by
      have hiff := hS.1 w
      rw [takesElse_sharedMap_none js a w htke] at hiff
      simp at hiff
      omega
    omega
  · omega
  · omega

theorem sharedInv_run (P : JParams) (js : JobState) (acts : List JAct)
    (h : SharedInv js) : SharedInv (runJ P js acts) := by
  induction acts generalizing js with
  | nil => exact h
  | cons a rest ih => exact ih (stepJ P js a) (sharedInv_step P js a h)

theorem qInv_run (P : JParams) (js : JobState) (acts : List JAct) (w : String)
    (hS : SharedInv js) (hQ : QInv js w)
    (hrf : raceFreeFor P js acts w = true) : QInv (runJ P js acts) w := by
  induction acts generalizing js with
  | nil => exact hQ
  | cons a rest ih =>
    unfold raceFreeFor at hrf
    rw [Bool.and_eq_true] at hrf
    obtain ⟨hb, hrest⟩ := hrf
    have hb2 : badStep js a w = false := by
      cases hbs : badStep js a w
      · rfl
      · rw [hbs] at hb
        cases hb
    exact ih (stepJ P js a) (sharedInv_step P js a hS) (qInv_step P js a w hS hQ hb2) hrest

theorem sharedInv_init (lines : List Line) (db0 files0 : List (String × String)) :
    SharedInv (initJ lines db0 files0) := by
  refine ⟨?_, ?_, ?_, ?_⟩
  · intro w
    simp [initJ, calledCount]
  · intro i t c hget hpc
    simp only [initJ, List.get?_map] at hget
    cases hl : lines.get? i with
    | none => rw [hl] at hget; cases hget
    | some l =>
      rw [hl] at hget
      cases hget
      cases hpc
  · intro i t c hget hpc
    simp only [initJ, List.get?_map] at hget
    cases hl : lines.get? i with
    | none => rw [hl] at hget; cases hget
    | some l =>
      rw [hl] at hget
      cases hget
      cases hpc
  · intro w c hmw
    simp [initJ] at hmw

theorem qInv_init (lines : List Line) (db0 files0 : List (String × String)) (w : String) :
    QInv (initJ lines db0 files0) w := by
  unfold QInv calledCount atDelayCount
  have h1 : ((initJ lines db0 files0).calls.filter (fun p => p.1 = w)).length = 0 := by
    simp [initJ]
  have h2 : ((initJ lines db0 files0).tasks.filter
      (fun t => t.line.words = w ∧ t.pc = LPC.awaitDelay)).length = 0 := by
    simp only [initJ]
    rw [List.filter_map]
    simp
  omega

/-- **C2 (amended).**  Within one job, a later line with identical text
that finds the in-flight request registered awaits it, issues no external
call of its own, and draws its image from that invocation's result set; so
under any schedule where no duplicate line passes the pending-map check
while an earlier identical line is still between `uncachedIndex++` and its
`axios.post` (the race-free schedules), the external generator is invoked
at most once per text.  In the racy schedules the check misses the not yet
registered request and a second call is issued — see the counterexample. -/
theorem c2_dedup_shared :
    (∀ (P : JParams) (lines : List Line) (db0 files0 : List (String × String))
        (acts : List JAct) (w : String),
      raceFreeFor P (initJ lines db0 files0) acts w = true →
      calledCount (runJ P (initJ lines db0 files0) acts) w ≤ 1) ∧
    (∀ (P : JParams) (lines : List Line) (db0 files0 : List (String × String))
        (acts : List JAct) (i c : Nat) (t : LineTask),
      (runJ P (initJ lines db0 files0) acts).tasks.get? i = some t →
      t.pc = LPC.awaitShared c →
      ∃ st, (runJ P (initJ lines db0 files0) acts).calls.get? c =
        some (t.line.words, st)) ∧
    (∀ (P : JParams) (js : JobState) (i k : Nat) (t : LineTask) (c : Nat)
        (w0 : String) (imgs : List String),
      js.tasks.get? i = some t → t.pc = LPC.awaitShared c →
      js.calls.get? c = some (w0, CallSt.resolved imgs) →
      (stepJ P js (JAct.resumeShared i k)).calls = js.calls ∧
      (imgs ≠ [] → getRandomElement imgs k ∈ imgs)) := by
  refine ⟨?_, ?_, ?_⟩
  · intro P lines db0 files0 acts w hrf
    have hq := qInv_run P (initJ lines db0 files0) acts w
      (sharedInv_init lines db0 files0) (qInv_init lines db0 files0 w) hrf
    unfold QInv at hq
    omega
  · intro P lines db0 files0 acts i c t hget hpc
    exact (sharedInv_run P (initJ lines db0 files0) acts
      (sharedInv_init lines db0 files0)).2.2.1 i t c hget hpc
  · intro P js i k t c w0 imgs hts hpc hcall
    simp only [stepJ, hts, hpc, hcall]
    exact ⟨(succeed_fields js i t _).2.2.1, fun hne => getRandomElement_mem imgs k hne⟩

theorem c2_dedup_shared_witness :
    (raceFreeFor ⟨fun _ => ["x", "y"]⟩ (initJ [⟨0, "a"⟩, ⟨1, "a"⟩] [] [])
      [JAct.resumeSelect 0 0 true, JAct.resumeDelay 0, JAct.resumePost 0 0 true,
        JAct.resumeSelect 1 0 true, JAct.resumeShared 1 1] "a" = true) ∧
    (calledCount (runJ ⟨fun _ => ["x", "y"]⟩ (initJ [⟨0, "a"⟩, ⟨1, "a"⟩] [] [])
      [JAct.resumeSelect 0 0 true, JAct.resumeDelay 0, JAct.resumePost 0 0 true,
        JAct.resumeSelect 1 0 true, JAct.resumeShared 1 1]) "a" ≤ 1) ∧
    ((stepJ ⟨fun _ => ["x", "y"]⟩
        (runJ ⟨fun _ => ["x", "y"]⟩ (initJ [⟨0, "a"⟩, ⟨1, "a"⟩] [] [])
          [JAct.resumeSelect 0 0 true, JAct.resumeDelay 0, JAct.resumePost 0 0 true,
            JAct.resumeSelect 1 0 true]) (JAct.resumeShared 1 1)).calls =
      (runJ ⟨fun _ => ["x", "y"]⟩ (initJ [⟨0, "a"⟩, ⟨1, "a"⟩] [] [])
        [JAct.resumeSelect 0 0 true, JAct.resumeDelay 0, JAct.resumePost 0 0 true,
          JAct.resumeSelect 1 0 true]).calls ∧
      getRandomElement ["x", "y"] 1 ∈ ["x", "y"]) := by
  refine ⟨by decide, ?_, ?_⟩
  · exact c2_dedup_shared.1 ⟨fun _ => ["x", "y"]⟩ [⟨0, "a"⟩, ⟨1, "a"⟩] [] []
      [JAct.resumeSelect 0 0 true, JAct.resumeDelay 0, JAct.resumePost 0 0 true,
        JAct.resumeSelect 1 0 true, JAct.resumeShared 1 1] "a" (by decide)
  · have h := c2_dedup_shared.2.2 ⟨fun _ => ["x", "y"]⟩
      (runJ ⟨fun _ => ["x", "y"]⟩ (initJ [⟨0, "a"⟩, ⟨1, "a"⟩] [] [])
        [JAct.resumeSelect 0 0 true, JAct.resumeDelay 0, JAct.resumePost 0 0 true,
          JAct.resumeSelect 1 0 true]) 1 1 ⟨⟨1, "a"⟩, LPC.awaitShared 0⟩ 0 "a" ["x", "y"]
      (by decide) rfl (by decide)
    exact ⟨h.1, h.2 (by decide)⟩

/-- **C2 (counterexample).**  Two lines with identical text `a`, both
uncached: each resolves its cache select and passes the pending-map check
before the other registers its request, so both enter the uncached branch
and the external generator is invoked twice for `a`. -/
theorem c2_counterexample :
    (calledCount (runJ ⟨fun _ => ["x"]⟩ (initJ [⟨0, "a"⟩, ⟨1, "a"⟩] [] [])
      [JAct.resumeSelect 0 0 true, JAct.resumeSelect 1 0 true, JAct.resumeDelay 0,
        JAct.resumeDelay 1]) "a" = 2) ∧
    ¬ (calledCount (runJ ⟨fun _ => ["x"]⟩ (initJ [⟨0, "a"⟩, ⟨1, "a"⟩] [] [])
      [JAct.resumeSelect 0 0 true, JAct.resumeSelect 1 0 true, JAct.resumeDelay 0,
        JAct.resumeDelay 1]) "a" ≤ 1) := by
  refine ⟨by decide, by decide⟩
